import Mathlib

/-!
Verification development for the version-state reconciliation and
test-matrix-planning engine of the nvidia-ci repository.

The Python modules `workflows/gpu_operator_dashboard/fetch_ci_data.py`,
`workflows/gpu_operator_versions/update_versions.py`,
`workflows/gpu_operator_versions/catalog_checker.py` and
`workflows/common/data_fetching.py` are embedded shallowly: pure functions
become Lean functions, dictionaries become association lists (Python dicts
preserve insertion order, which the association lists model), and a Python
function that can raise is modeled with an `Option` result where `none`
stands for the raised exception.
-/

namespace NvidiaCI

/-! ## Python string primitives -/

/-- Characters treated as whitespace by Python's `str.strip()` / `int()`
(ASCII subset; exotic unicode whitespace is outside the model). -/
def isPySpace (c : Char) : Bool :=
  c == ' ' || c == '\t' || c == '\n' || c == '\r' || c == Char.ofNat 11 || c == Char.ofNat 12

/-- Python `str.strip()` on a character list. -/
def pyStripChars (l : List Char) : List Char :=
  ((l.dropWhile isPySpace).reverse.dropWhile isPySpace).reverse

/-- Value of a digit string. -/
def digitsVal (l : List Char) : Nat :=
  l.foldl (fun a c => a * 10 + (c.toNat - '0'.toNat)) 0

/-- Parse a non-empty all-digit run. -/
def parseDigits (l : List Char) : Option Nat :=
  if !l.isEmpty && l.all Char.isDigit then some (digitsVal l) else none

/-- Python `int(s)` as used on `job_timestamp` fields: optional surrounding
whitespace, optional sign, decimal digits; `none` models the `ValueError`
raised otherwise.  (Underscore digit grouping is outside the model.) -/
def pyInt (s : String) : Option Int :=
  match pyStripChars s.data with
  | '-' :: rest => (parseDigits rest).map (fun n => -(n : Int))
  | '+' :: rest => (parseDigits rest).map (fun n => (n : Int))
  | rest => (parseDigits rest).map (fun n => (n : Int))

/-- Does `hay` start with `needle`? -/
def listStartsWith (needle hay : List Char) : Bool :=
  match needle, hay with
  | [], _ => true
  | _ :: _, [] => false
  | a :: as, b :: bs => a == b && listStartsWith as bs

/-- Python's substring test `needle in hay`. -/
def listContains (needle hay : List Char) : Bool :=
  match hay with
  | [] => listStartsWith needle []
  | _ :: t => listStartsWith needle hay || listContains needle t

/-- Split at the first occurrence of character `c`, if any. -/
def splitFirstC (c : Char) : List Char → Option (List Char × List Char)
  | [] => none
  | a :: as =>
    if a = c then some ([], as)
    else (splitFirstC c as).map (fun p => (a :: p.1, p.2))

/-- Split on every occurrence of character `c` (Python `s.split(c)`). -/
def splitAllC (c : Char) (l : List Char) : List (List Char) :=
  l.foldr
    (fun ch acc =>
      match acc with
      | [] => [[ch]]
      | cur :: rest => if ch = c then [] :: cur :: rest else (ch :: cur) :: rest)
    [[]]

/-- Split at the first occurrence of a literal substring, if present. -/
def splitFirstLit (lit : List Char) : List Char → Option (List Char × List Char)
  | [] => if listStartsWith lit [] then some ([], []) else none
  | l@(a :: t) =>
    if listStartsWith lit l then some ([], l.drop lit.length)
    else (splitFirstLit lit t).map (fun p => (a :: p.1, p.2))

/-! ## Semantic-version validity (`semver.VersionInfo.parse`)

The `semver` library accepts exactly the SemVer 2.0.0 grammar:
`major.minor.patch` with numeric identifiers free of leading zeros,
an optional dash-prefixed dot-separated prerelease, and an optional
plus-prefixed dot-separated build part. -/

/-- A numeric identifier without leading zeros. -/
def noLeadZeroNum (l : List Char) : Bool :=
  !l.isEmpty && l.all Char.isDigit && (l.length == 1 || !(l.head? == some '0'))

/-- Characters allowed in prerelease/build identifiers. -/
def isIdentC (c : Char) : Bool := c.isDigit || c.isAlpha || c == '-'

/-- One prerelease identifier: non-empty, ident chars, numeric ones free of
leading zeros. -/
def preRelIdOk (l : List Char) : Bool :=
  !l.isEmpty && l.all isIdentC && (!(l.all Char.isDigit) || noLeadZeroNum l)

/-- One build identifier: non-empty sequence of ident chars. -/
def buildIdOk (l : List Char) : Bool := !l.isEmpty && l.all isIdentC

/-- The `major.minor.patch` core. -/
def coreOk (l : List Char) : Bool :=
  match splitAllC '.' l with
  | [a, b, c] => noLeadZeroNum a && noLeadZeroNum b && noLeadZeroNum c
  | _ => false

/-- Core plus optional prerelease (first dash separates them). -/
def mainPartOk (l : List Char) : Bool :=
  match splitFirstC '-' l with
  | none => coreOk l
  | some (core, pre) => coreOk core && (splitAllC '.' pre).all preRelIdOk

/-- Does `semver.VersionInfo.parse s` succeed? -/
def semverOk (s : String) : Bool :=
  match splitAllC '+' s.data with
  | [vp] => mainPartOk vp
  | [vp, bp] => mainPartOk vp && (splitAllC '.' bp).all buildIdOk
  | _ => false

/-! ## TestResult (fetch_ci_data.py)

A persisted observation dict holds exactly the five fields below
(`TestResult(**item)` rejects anything else and `to_dict` emits exactly
them), so the dict form and the dataclass are identified. -/

/-- One test run observation. -/
structure TestResult where
  ocp_full_version : String
  gpu_operator_version : String
  test_status : String
  prow_job_url : String
  job_timestamp : String
  deriving DecidableEq

def STATUS_SUCCESS : String := "SUCCESS"
def STATUS_ABORTED : String := "ABORTED"

/-! ## extract_build_components: the TEST_RESULT_PATH_REGEX search -/

/-- Match a literal and return the remainder. -/
def dropLit (lit l : List Char) : Option (List Char) :=
  if listStartsWith lit l then some (l.drop lit.length) else none

/-- Match a single character and return the remainder. -/
def dropCh (c : Char) : List Char → Option (List Char)
  | a :: as => if a == c then some as else none
  | [] => none

/-- Match a maximal non-empty digit run (regex `\d+`). -/
def takeDigits1 (l : List Char) : Option (List Char × List Char) :=
  let d := l.takeWhile Char.isDigit
  if d.isEmpty then none else some (d, l.drop d.length)

/-- Match a maximal non-empty slash-free run (regex `[^/]+`). -/
def takeNonSlash1 (l : List Char) : Option (List Char × List Char) :=
  let d := l.takeWhile (fun c => !(c == '/'))
  if d.isEmpty then none else some (d, l.drop d.length)

/-- Optional `rehearse-\d+-` job-name prefix.  When the text starts with
`rehearse-` but the prefix does not complete, the bare alternative cannot
match either (it starts with `pull-ci`), so the whole position fails, which
matches the regex backtracking behavior. -/
def matchRehearse (l : List Char) : Option (List Char × List Char) :=
  if listStartsWith "rehearse-".data l then
    match takeDigits1 (l.drop 9) with
    | none => none
    | some (d, l2) =>
      match dropCh '-' l2 with
      | none => none
      | some l3 => some ("rehearse-".data ++ d ++ ['-'], l3)
  else some ([], l)

/-- The `(\d+-\d+-x|master)` alternative of the gpu suffix.  The branches
start with a digit and with `m` respectively, so trying them in order is
exactly the regex alternation. -/
def matchGpu (l : List Char) : Option (List Char × List Char) :=
  match takeDigits1 l with
  | some (d1, l1) => do
    let l2 ← dropCh '-' l1
    let (d2, l3) ← takeDigits1 l2
    let l4 ← dropCh '-' l3
    let l5 ← dropCh 'x' l4
    pure (d1 ++ ['-'] ++ d2 ++ ['-', 'x'], l5)
  | none => (dropLit "master".data l).map (fun r => ("master".data, r))

def mainJobLit : List Char := "pull-ci-rh-ecosystem-edge-nvidia-ci-main-".data

def stableJobLit : List Char := "-stable-nvidia-gpu-operator-e2e-".data

/-- Attempt to match `TEST_RESULT_PATH_REGEX` starting at this position;
yields `(repo, pr_number, job_name, build_id)`.  Every quantified piece of
the pattern is followed by a character it cannot contain, so the greedy
match without backtracking below is the regex semantics. -/
def matchTRP (l : List Char) : Option (String × String × String × String) :=
  match dropLit "pr-logs/pull/".data l with
  | none => none
  | some l1 =>
  match takeNonSlash1 l1 with
  | none => none
  | some (repo, l2) =>
  match dropCh '/' l2 with
  | none => none
  | some l3 =>
  match takeDigits1 l3 with
  | none => none
  | some (pr, l4) =>
  match dropCh '/' l4 with
  | none => none
  | some l5 =>
  match matchRehearse l5 with
  | none => none
  | some (reh, l6) =>
  match dropLit mainJobLit l6 with
  | none => none
  | some l7 =>
  match takeDigits1 l7 with
  | none => none
  | some (o1, l8) =>
  match dropCh '.' l8 with
  | none => none
  | some l9 =>
  match takeDigits1 l9 with
  | none => none
  | some (o2, l10) =>
  match dropLit stableJobLit l10 with
  | none => none
  | some l11 =>
  match matchGpu l11 with
  | none => none
  | some (g, l12) =>
  match dropCh '/' l12 with
  | none => none
  | some l13 =>
  match takeNonSlash1 l13 with
  | none => none
  | some (bid, _) =>
    let jobName := reh ++ mainJobLit ++ o1 ++ ['.'] ++ o2 ++ stableJobLit ++ g
    some (String.mk repo, String.mk pr, String.mk jobName, String.mk bid)

/-- `re.search`: leftmost position at which the pattern matches. -/
def searchTRP : List Char → Option (String × String × String × String)
  | [] => none
  | l@(_ :: t) =>
    match matchTRP l with
    | some r => some r
    | none => searchTRP t

/-- extract_build_components: truncate at the first `/artifacts/` (keeping a
trailing slash) and search for the path pattern; `none` models the
`ValueError` raised on a mismatch. -/
def extract_build_components (path : String) : Option (String × String × String × String) :=
  let cs :=
    match splitFirstLit "/artifacts/".data path.data with
    | some (before, _) => before ++ ['/']
    | none => path.data
  searchTRP cs

/-- TestResult.build_key: the `(pr_number, job_name, build_id)` identity of
the CI run, derived from the prow job URL. -/
def build_key (r : TestResult) : Option (String × String × String) :=
  (extract_build_components r.prow_job_url).map (fun q => (q.2.1, q.2.2.1, q.2.2.2))

/-- The gpu version with a parenthesized suffix removed and stripped, as in
`gpu_operator_version.split("(")[0].strip()`. -/
def gpuBase (s : String) : String :=
  match splitFirstC '(' s.data with
  | some (before, _) => String.mk (pyStripChars before)
  | none => String.mk (pyStripChars s.data)

/-- get_version_key: the version-combination grouping key. -/
def get_version_key (r : TestResult) : String × String :=
  (r.ocp_full_version, gpuBase r.gpu_operator_version)

/-- TestResult.has_exact_versions. -/
def has_exact_versions (r : TestResult) : Bool :=
  semverOk r.ocp_full_version && semverOk (gpuBase r.gpu_operator_version)

/-! ## Association lists with Python-dict semantics

A Python dict preserves insertion order; writing an existing key updates
the value in place, writing a fresh key appends. -/

/-- Python `d[k] = v`. -/
def upsert {κ α : Type} [DecidableEq κ] (k : κ) (v : α) : List (κ × α) → List (κ × α)
  | [] => [(k, v)]
  | (k', v') :: rest => if k' = k then (k, v) :: rest else (k', v') :: upsert k v rest

/-- Python `d.get(k)`. -/
def alookup {κ α : Type} [DecidableEq κ] (k : κ) : List (κ × α) → Option α
  | [] => none
  | (k', v') :: rest => if k' = k then some v' else alookup k rest

/-- Python `d.setdefault(k, []).append(v)`. -/
def appendGroup {κ α : Type} [DecidableEq κ] (k : κ) (v : α) : List (κ × List α) → List (κ × List α)
  | [] => [(k, [v])]
  | (k', vs) :: rest => if k' = k then (k', vs ++ [v]) :: rest else (k', vs) :: appendGroup k v rest

/-! ## The sort key and order used by the merge functions -/

/-- The integer sort key `int(x.get('job_timestamp', '0'))`; the merge
functions only apply it under a guard that `pyInt` succeeds, so the
`getD 0` default is never observed. -/
def tsv (r : TestResult) : Int := (pyInt r.job_timestamp).getD 0

/-- Whether the sort key computation would succeed (else Python raises). -/
def tsOk (r : TestResult) : Bool := (pyInt r.job_timestamp).isSome

/-- The ordering of `list.sort(key=..., reverse=True)`: newest first.
`List.insertionSort` with this relation is a stable descending sort,
which is exactly Python's sort semantics. -/
def tsDesc (a b : TestResult) : Prop := tsv b ≤ tsv a

instance : DecidableRel tsDesc := fun a b => inferInstanceAs (Decidable (tsv b ≤ tsv a))

instance : IsTotal TestResult tsDesc :=
  ⟨fun a b => (le_total (tsv b) (tsv a)).imp id id⟩

instance : IsTrans TestResult tsDesc :=
  ⟨fun _ _ _ h1 h2 => le_trans h2 h1⟩

/-! ## merge_bundle_tests -/

/-- A build key `(pr_number, job_name, build_id)`. -/
abbrev BKey := String × String × String

/-- A version-combination key `(ocp_full_version, gpu base version)`. -/
abbrev VKey := String × String

/-- The build key forced to a total function; only ever used under the
guard that `build_key` succeeds. -/
def bkD (r : TestResult) : BKey := (build_key r).getD ("", "", "")

/-- One step of the deduplicating loop of merge_bundle_tests:
`all_tests_by_build[result.build_key()] = item`. -/
def bupsert (acc : List (BKey × TestResult)) (r : TestResult) : List (BKey × TestResult) :=
  upsert (bkD r) r acc

/-- merge_bundle_tests: deduplicate by build key (new overwrites existing),
sort by timestamp newest first, truncate to the limit.  `none` models the
exceptions Python would raise while computing a build key or a sort key.
(Only non-negative limits are modeled; the CLI never passes negatives.) -/
def merge_bundle_tests (new_tests existing_tests : List TestResult) (limit : Option Nat) :
    Option (List TestResult) :=
  if (existing_tests ++ new_tests).all (fun r => (build_key r).isSome) then
    if (((existing_tests ++ new_tests).foldl bupsert []).map Prod.snd).all tsOk then
      some (match limit with
            | some l =>
              ((((existing_tests ++ new_tests).foldl bupsert []).map
                Prod.snd).insertionSort tsDesc).take l
            | none =>
              (((existing_tests ++ new_tests).foldl bupsert []).map
                Prod.snd).insertionSort tsDesc)
    else none
  else none

/-! ## merge_release_tests -/

/-- Selection of the single best result of one version group: prefer the
latest SUCCESS, else the latest non-SUCCESS.  Outer `none` is a raised
exception while sorting; inner `none` is Python's `selected_result = None`
(only reachable for an empty group).  Python sorts only the class it
selects from, so only that class's timestamps must parse. -/
def select_result (l : List TestResult) : Option (Option TestResult) :=
  if (l.filter (fun r => r.test_status == STATUS_SUCCESS)).isEmpty then
    if (l.filter (fun r => !(r.test_status == STATUS_SUCCESS))).isEmpty then some none
    else if (l.filter (fun r => !(r.test_status == STATUS_SUCCESS))).all tsOk then
      some ((l.filter (fun r => !(r.test_status == STATUS_SUCCESS))).insertionSort
        tsDesc).head?
    else none
  else if (l.filter (fun r => r.test_status == STATUS_SUCCESS)).all tsOk then
    some ((l.filter (fun r => r.test_status == STATUS_SUCCESS)).insertionSort tsDesc).head?
  else none

/-- The filter applied to incoming release results (and, per the function's
docstring, meant for persisted ones too): exact semantic versions and not
aborted. -/
def releaseKeep (r : TestResult) : Bool :=
  has_exact_versions r && !(r.test_status == STATUS_ABORTED)

/-- One step of the grouping loop of merge_release_tests:
`results_by_version.setdefault(version_key, []).append(result)`. -/
def gappend (acc : List (VKey × List TestResult)) (r : TestResult) :
    List (VKey × List TestResult) :=
  appendGroup (get_version_key r) r acc

/-- The selection loop over `results_by_version.values()`: one best result
appended per group, in group order; `none` propagates a raised exception. -/
def collect_selected : List (VKey × List TestResult) → Option (List TestResult)
  | [] => some []
  | g :: gs =>
    match select_result g.2 with
    | none => none
    | some none => collect_selected gs
    | some (some s) => (collect_selected gs).map (fun rest => s :: rest)

/-- merge_release_tests: group by version combination — existing results
unfiltered, new results filtered by `releaseKeep` — pick one best result
per group, sort newest first. -/
def merge_release_tests (new_tests existing_tests : List TestResult) :
    Option (List TestResult) :=
  match collect_selected (new_tests.foldl
      (fun acc r => if releaseKeep r then gappend acc r else acc)
      (existing_tests.foldl gappend [])) with
  | none => none
  | some final =>
    if final.all tsOk then some (final.insertionSort tsDesc) else none

/-! ## merge_job_history_links (workflows/common/data_fetching.py) -/

/-- merge_job_history_links: the sorted list of the union of the two link
collections.  Python forms `set(new) | set(existing)` and sorts it; the
result is the unique duplicate-free, lexicographically sorted list with
that membership, which the expression below also produces. -/
def merge_job_history_links (new_links existing_links : List String) : List String :=
  ((new_links ++ existing_links).dedup).insertionSort (· ≤ ·)

/-! ## merge_ocp_version_results and merge_and_save_results -/

/-- One incoming per-OCP-version batch bucket, as built by
`process_tests_for_pr` (all three keys always present). -/
structure NewBucket where
  bundle_tests : List TestResult := []
  release_tests : List TestResult := []
  job_history_links : List String := []
  deriving DecidableEq

/-- One persisted per-OCP-version bucket; `none` marks a key absent from
the JSON object (the merge defaults it).  Unknown extra keys pass through
`dict.update` untouched and are outside the model. -/
structure RawBucket where
  notes : Option (List String) := none
  bundle_tests : Option (List TestResult) := none
  release_tests : Option (List TestResult) := none
  job_history_links : Option (List String) := none
  deriving DecidableEq

def emptyRawBucket : RawBucket := {}

/-- merge_ocp_version_results: merge one OCP version's bucket.  `notes` is
initialized to `[]` and then overwritten by `dict.update(existing)` when
the persisted bucket has the key. -/
def merge_ocp_version_results (newb : NewBucket) (existing : RawBucket) (limit : Option Nat) :
    Option RawBucket :=
  match merge_bundle_tests newb.bundle_tests (existing.bundle_tests.getD []) limit with
  | none => none
  | some bt =>
    match merge_release_tests newb.release_tests (existing.release_tests.getD []) with
    | none => none
    | some rt =>
      some { notes := some (existing.notes.getD [])
           , bundle_tests := some bt
           , release_tests := some rt
           , job_history_links :=
               some (merge_job_history_links newb.job_history_links
                 (existing.job_history_links.getD [])) }

/-- The loop of merge_and_save_results over the batch's OCP versions,
reading the bucket under construction (`merged_results.get(ocp, {})`). -/
def merge_buckets_loop (limit : Option Nat) :
    List (String × NewBucket) → List (String × RawBucket) → Option (List (String × RawBucket))
  | [], acc => some acc
  | kv :: rest, acc =>
    match merge_ocp_version_results kv.2 ((alookup kv.1 acc).getD emptyRawBucket) limit with
    | none => none
    | some merged => merge_buckets_loop limit rest (upsert kv.1 merged acc)

/-- merge_and_save_results (without the file write, an external sink):
start from a copy of the persisted history and fold every batch bucket in. -/
def merge_and_save_results (new_results : List (String × NewBucket))
    (existing_results : List (String × RawBucket)) (limit : Option Nat) :
    Option (List (String × RawBucket)) :=
  merge_buckets_loop limit new_results existing_results

/-! ## DiffEngine (update_versions.py : calculate_diffs) -/

/-- A JSON version tree: a leaf version string or an object. -/
inductive VTree where
  | leaf : String → VTree
  | node : List (String × VTree) → VTree

/-- Python `key in s` for strings (substring test), as hit by
`key not in old_versions` when `old_versions` is a leaf string. -/
def pyIn (key hay : String) : Bool := listContains key.data hay.data

/-- calculate_diffs without the catalog-filter block (`check_catalog=False`):
walk the keys of `new`; nested objects recurse into `old.get(key, {})`,
leaves are kept when missing from or different in `old`.  `none` models the
`AttributeError`/`TypeError` Python raises when `old` is a string where an
object is consulted.  (When `old` is a string, `key not in old` is Python's
substring test; when that test finds the key, `old[key]` raises.) -/
def calc_diffs (old : VTree) (new : List (String × VTree)) :
    Option (List (String × VTree)) :=
  match new with
  | [] => some []
  | (k, VTree.leaf s) :: rest =>
    (match old with
     | VTree.node m =>
       (match alookup k m with
        | none => (calc_diffs old rest).map (fun d => (k, VTree.leaf s) :: d)
        | some (VTree.leaf os') =>
          if os' = s then calc_diffs old rest
          else (calc_diffs old rest).map (fun d => (k, VTree.leaf s) :: d)
        | some (VTree.node _) =>
          (calc_diffs old rest).map (fun d => (k, VTree.leaf s) :: d))
     | VTree.leaf os =>
       if pyIn k os then none
       else (calc_diffs old rest).map (fun d => (k, VTree.leaf s) :: d))
  | (k, VTree.node sub) :: rest =>
    (match old with
     | VTree.leaf _ => none
     | VTree.node m =>
       match calc_diffs ((alookup k m).getD (VTree.node [])) sub with
       | none => none
       | some sd =>
         match calc_diffs old rest with
         | none => none
         | some dr => some (if sd.isEmpty then dr else (k, VTree.node sd) :: dr))
  termination_by sizeOf new
  decreasing_by all_goals simp_wf <;> omega

/-- The leaf value of a tree at a path, if any. -/
def leafAt : VTree → List String → Option String
  | VTree.leaf s, [] => some s
  | VTree.node m, k :: p =>
    (match alookup k m with
     | some t => leafAt t p
     | none => none)
  | VTree.leaf _, _ :: _ => none
  | VTree.node _, [] => none

/-- Well-formedness of a JSON object's entry list: keys are distinct at
every level (Python dicts cannot hold duplicate keys). -/
def wfL : List (String × VTree) → Bool
  | [] => true
  | (k, VTree.leaf _) :: rest => !(decide (k ∈ rest.map Prod.fst)) && wfL rest
  | (k, VTree.node sub) :: rest =>
    !(decide (k ∈ rest.map Prod.fst)) && wfL sub && wfL rest
  termination_by l => sizeOf l
  decreasing_by all_goals simp_wf <;> omega

/-! ## SupportPolicy (update_versions.py) -/

/-- A dynamically typed `pinned_gpu_operator` value. -/
inductive PyVal where
  | pynone : PyVal
  | pystr : String → PyVal
  | pylist : List String → PyVal
  | pyset : List String → PyVal
  | pyother : PyVal
  deriving DecidableEq

/-- normalize_pinned_gpu_operator: "Normalize pinned_gpu_operator to a
list."  For a Python set the element list stands for its iteration order. -/
def normalize_pinned_gpu_operator : PyVal → List String
  | PyVal.pynone => []
  | PyVal.pylist xs => xs
  | PyVal.pystr s => [s]
  | PyVal.pyset xs => xs
  | PyVal.pyother => []

/-- One support-matrix entry; only the `status` key is consulted by the
functions modeled here (`pinned_gpu_operator` feeds the planner only). -/
structure SupportCfg where
  status : Option String := none
  deriving DecidableEq

/-- The support matrix: the explicit per-version map and the
`defaults.unlisted_versions` entry when present. -/
structure SupportMatrix where
  openshift_support : List (String × SupportCfg) := []
  defaults_unlisted : Option SupportCfg := none
  deriving DecidableEq

/-- get_ocp_support_config: explicit entry, else the configured default,
else `{status: active}`. -/
def get_ocp_support_config (v : String) (m : SupportMatrix) : SupportCfg :=
  match alookup v m.openshift_support with
  | some c => c
  | none => m.defaults_unlisted.getD { status := some "active" }

/-- get_active_ocp_versions. -/
def get_active_ocp_versions (releases : List String) (m : SupportMatrix) : List String :=
  releases.filter (fun v => (get_ocp_support_config v m).status == some "active")

/-! ## CatalogAvailabilityFilter (catalog_checker.py / update_versions.py) -/

/-- One catalog entry as returned by the catalog API; `none` fields model
missing keys read through `entry.get`. -/
structure CatalogEntry where
  version : Option String := none
  ocp_version : Option String := none
  deriving DecidableEq

/-- Python `s.lstrip('v')`. -/
def lstripV (s : String) : String := String.mk (s.data.dropWhile (fun c => c == 'v'))

/-- is_available_in_catalog_entries: some entry matches the normalized gpu
version and the exact ocp version. -/
def is_available_in_catalog_entries (entries : List CatalogEntry) (gpu ocp : String) : Bool :=
  entries.any (fun e =>
    lstripV (e.version.getD "") == lstripV gpu && e.ocp_version == some ocp)

/-- filter_new_gpu_versions_by_catalog.  The catalog fetch
(`fetch_gpu_operator_catalog_entries`) is an external network collaborator;
its result list is taken here as the `entries` parameter. -/
def filter_new_gpu_versions_by_catalog (gpu_diffs : List (String × String))
    (ocp_versions : List (String × String)) (m : SupportMatrix)
    (entries : List CatalogEntry) : List (String × String) :=
  if gpu_diffs.isEmpty then gpu_diffs
  else if (get_active_ocp_versions (ocp_versions.map Prod.fst) m).isEmpty then gpu_diffs
  else gpu_diffs.filter
    (fun kv => (get_active_ocp_versions (ocp_versions.map Prod.fst) m).any
      (fun ocp => is_available_in_catalog_entries entries kv.2 ocp))

/-! ## Concrete data used by the witness theorems -/

def wURL1 : String :=
  "pr-logs/pull/r/1/pull-ci-rh-ecosystem-edge-nvidia-ci-main-4.14-stable-nvidia-gpu-operator-e2e-24-4-x/11"

def wURL2 : String :=
  "pr-logs/pull/r/2/pull-ci-rh-ecosystem-edge-nvidia-ci-main-4.14-stable-nvidia-gpu-operator-e2e-24-4-x/22"

def wObs1 : TestResult := ⟨"4.14.1", "23.9.0", "SUCCESS", wURL1, "5"⟩

def wObs2 : TestResult := ⟨"4.14.1", "23.9.0", "FAILURE", wURL2, "9"⟩

def wX : List (String × NewBucket) :=
  [("4.14", { bundle_tests := [wObs1], release_tests := [wObs2],
              job_history_links := ["l1"] })]

def wH : List (String × RawBucket) :=
  [("4.14", { notes := some ["note"], bundle_tests := some [wObs2],
              release_tests := some [wObs1], job_history_links := some ["l0"] }),
   ("4.12", { notes := some ["old note"] })]

def wY : List (String × RawBucket) := (merge_and_save_results wX wH (some 2)).getD []

def wBunE : List TestResult := [⟨"4.14", "24-4-x", "FAILURE", wURL1, "7"⟩]

def wBunN : List TestResult :=
  [⟨"4.14", "24-4-x", "SUCCESS", wURL1, "5"⟩, ⟨"4.14", "24-4-x", "FAILURE", wURL2, "9"⟩]

def wBout : List TestResult := (merge_bundle_tests wBunN wBunE (some 1)).getD []

def wRelE : List TestResult := [⟨"4.14.1", "23.9.0", "FAILURE", "u1", "10"⟩]

def wRelN : List TestResult := [⟨"4.14.1", "23.9.0", "SUCCESS", "u2", "5"⟩]

def wRout : List TestResult := (merge_release_tests wRelN wRelE).getD []

def wOld : VTree := VTree.node [("ocp", VTree.node [("4.12", VTree.leaf "4.12.1")])]

def wNew : List (String × VTree) := [("ocp", VTree.node [("4.12", VTree.leaf "4.12.2")])]

def wDiff : List (String × VTree) := [("ocp", VTree.node [("4.12", VTree.leaf "4.12.2")])]

def wMatrix : SupportMatrix :=
  { openshift_support := [("4.12", { status := some "maintenance" })]
  , defaults_unlisted := none }

def wEntries : List CatalogEntry :=
  [{ version := some "v25.10.1", ocp_version := some "4.14" }]

def wOcpVersions : List (String × String) := [("4.14", "4.14.1"), ("4.12", "4.12.9")]

def wGpuDiffs : List (String × String) := [("25.10", "25.10.1"), ("24.6", "24.6.2")]

/-! ## Derived definitions used by the lemmas below -/

/-- The last element of `l` whose build key is `k`: the value a Python dict
holds at `k` after the writes of the dedup loop. -/
def lastWith (k : BKey) (l : List TestResult) : Option TestResult :=
  l.reverse.find? (fun r => decide (bkD r = k))

/-- Abbreviation for the deduplicated value list of the bundle merge. -/
def bundleVals (N E : List TestResult) : List TestResult :=
  ((E ++ N).foldl bupsert []).map Prod.snd

/-- The sub-list of `l` with version key `k`, in order: the group list the
Python grouping loop builds at key `k`. -/
def grpWith (k : VKey) (l : List TestResult) : List TestResult :=
  l.filter (fun r => decide (get_version_key r = k))

/-- First occurrences of the elements of `l`, in order of first appearance:
the key order of a Python dict filled by `setdefault`. -/
def firstOccs {κ : Type} [DecidableEq κ] : List κ → List κ
  | [] => []
  | k :: r => k :: (firstOccs r).filter (fun x => decide (x ≠ k))

/-- The candidate pool of the release merge: existing results (unfiltered)
followed by the filtered new results. -/
def releaseCands (N E : List TestResult) : List TestResult :=
  E ++ N.filter releaseKeep

/-- The bundle list of the bucket of a history `Y` at key `k`, with the
merge's defaults for an absent bucket or field. -/
def bunAt (Y : List (String × RawBucket)) (k : String) : List TestResult :=
  ((alookup k Y).getD emptyRawBucket).bundle_tests.getD []

/-- The release list of the bucket of a history `Y` at key `k`. -/
def relAt (Y : List (String × RawBucket)) (k : String) : List TestResult :=
  ((alookup k Y).getD emptyRawBucket).release_tests.getD []

/-- The batch bucket at key `k` (the empty bucket when the batch does not
mention `k`). -/
def nbAt (X : List (String × NewBucket)) (k : String) : NewBucket :=
  (alookup k X).getD {}

/-- How many elements of `l` carry a strictly greater timestamp than `x`:
the number of candidates ranked above `x` by the descending sort. -/
def cntAbove (l : List TestResult) (x : TestResult) : Nat :=
  l.countP (fun y => decide (tsv x < tsv y))

/-- `c` is strictly below the configured bundle limit; trivially true when
no limit is configured. -/
def withinLimit (L : Option Nat) (c : Nat) : Prop := ∀ n, L = some n → c < n

/-- `s` is what the release selection keeps from the candidate pool
`cands`: a SUCCESS candidate at least as late as every SUCCESS candidate,
or — when the pool has no SUCCESS at all — a candidate at least as late as
every candidate. -/
def IsBest (cands : List TestResult) (s : TestResult) : Prop :=
  s ∈ cands ∧
    ((s.test_status = STATUS_SUCCESS ∧
        ∀ x ∈ cands, x.test_status = STATUS_SUCCESS → tsv x ≤ tsv s) ∨
     ((¬ s.test_status = STATUS_SUCCESS) ∧
        (∀ x ∈ cands, ¬ x.test_status = STATUS_SUCCESS) ∧
        ∀ x ∈ cands, tsv x ≤ tsv s))

/-! ## Concrete data exhibiting the order dependence of the merge

Four buckets isolate four causes: a release timestamp tie (`"r"`), a
bundle timestamp tie at the configured limit (`"t"`), a build key shared
by the two batches (`"k"`), and a batch observation overwriting a
persisted observation's build key under a limit (`"p"`). -/

def zra : TestResult := ⟨"4.14.1", "23.9.0", "FAILURE", "ua", "10"⟩

def zrb : TestResult := ⟨"4.14.1", "23.9.0", "FAILURE", "ub", "10"⟩

def zt1 : TestResult := ⟨"4.14", "24.1.0", "FAILURE", wURL1, "5"⟩

def zt2 : TestResult := ⟨"4.14", "24.1.0", "FAILURE", wURL2, "5"⟩

def zk1 : TestResult := ⟨"4.14", "24.1.0", "FAILURE", wURL1, "5"⟩

def zk2 : TestResult := ⟨"4.14", "24.1.0", "FAILURE", wURL1, "7"⟩

def zp1 : TestResult := ⟨"4.14", "24.1.0", "FAILURE", wURL1, "100"⟩

def zp2 : TestResult := ⟨"4.14", "24.1.0", "FAILURE", wURL2, "50"⟩

def zp3 : TestResult := ⟨"4.14", "24.1.0", "FAILURE", wURL1, "1"⟩

def zA : List (String × NewBucket) :=
  [("r", { release_tests := [zra] }),
   ("t", { bundle_tests := [zt1] }),
   ("k", { bundle_tests := [zk1] }),
   ("p", {})]

def zB : List (String × NewBucket) :=
  [("r", { release_tests := [zrb] }),
   ("t", { bundle_tests := [zt2] }),
   ("k", { bundle_tests := [zk2] }),
   ("p", { bundle_tests := [zp3] })]

def zH : List (String × RawBucket) :=
  [("p", { bundle_tests := some [zp1, zp2] })]

def zYA : List (String × RawBucket) := (merge_and_save_results zA zH (some 1)).getD []

def zYAB : List (String × RawBucket) := (merge_and_save_results zB zYA (some 1)).getD []

def zYB : List (String × RawBucket) := (merge_and_save_results zB zH (some 1)).getD []

def zYBA : List (String × RawBucket) := (merge_and_save_results zA zYB (some 1)).getD []

/-! ## Concrete data for the order-independence witness: distinct build
keys and distinct timestamps everywhere. -/

def cURL3 : String :=
  "pr-logs/pull/r/3/pull-ci-rh-ecosystem-edge-nvidia-ci-main-4.14-stable-nvidia-gpu-operator-e2e-24-4-x/33"

def ch1 : TestResult := ⟨"4.14", "24.1.0", "FAILURE", wURL1, "30"⟩

def ca1 : TestResult := ⟨"4.14", "24.1.0", "SUCCESS", wURL2, "20"⟩

def cb1 : TestResult := ⟨"4.14", "24.1.0", "FAILURE", cURL3, "10"⟩

def cr1 : TestResult := ⟨"4.14.1", "23.9.0", "FAILURE", "x1", "3"⟩

def cra : TestResult := ⟨"4.14.1", "23.9.0", "SUCCESS", "x2", "2"⟩

def crb : TestResult := ⟨"4.14.1", "23.9.0", "FAILURE", "x3", "1"⟩

def cH : List (String × RawBucket) :=
  [("4.14", { notes := some ["n"], bundle_tests := some [ch1],
              release_tests := some [cr1], job_history_links := some [] })]

def cA : List (String × NewBucket) :=
  [("4.14", { bundle_tests := [ca1], release_tests := [cra] })]

def cB : List (String × NewBucket) :=
  [("4.14", { bundle_tests := [cb1], release_tests := [crb] })]

def cYA : List (String × RawBucket) := (merge_and_save_results cA cH (some 2)).getD []

def cYAB : List (String × RawBucket) := (merge_and_save_results cB cYA (some 2)).getD []

def cYB : List (String × RawBucket) := (merge_and_save_results cB cH (some 2)).getD []

def cYBA : List (String × RawBucket) := (merge_and_save_results cA cYB (some 2)).getD []

/-! ## Lemmas: association lists with dict semantics -/

section AssocLemmas

variable {κ α : Type} [DecidableEq κ]

theorem alookup_upsert_self (k : κ) (v : α) (m : List (κ × α)) :
    alookup k (upsert k v m) = some v := by
  induction m with
  | nil => simp [upsert, alookup]
  | cons e rest ih =>
    rcases e with ⟨k', v'⟩
    by_cases h : k' = k
    · simp [upsert, h, alookup]
    · simp [upsert, h, alookup, ih]

theorem alookup_upsert_ne {k' k : κ} (h : k' ≠ k) (v : α) (m : List (κ × α)) :
    alookup k' (upsert k v m) = alookup k' m := by
  have h' : k ≠ k' := Ne.symm h
  induction m with
  | nil => simp [upsert, alookup, h']
  | cons e rest ih =>
    rcases e with ⟨k₀, v₀⟩
    by_cases h0 : k₀ = k
    · subst h0
      simp [upsert, alookup, h']
    · by_cases h1 : k₀ = k'
      · subst h1
        simp [upsert, h0, alookup]
      · simp [upsert, h0, alookup, h1, ih]

theorem upsert_of_alookup_eq {k : κ} {v : α} {m : List (κ × α)}
    (h : alookup k m = some v) : upsert k v m = m := by
  induction m with
  | nil => simp [alookup] at h
  | cons e rest ih =>
    rcases e with ⟨k₀, v₀⟩
    by_cases h0 : k₀ = k
    · subst h0
      simp [alookup] at h
      simp [upsert, h]
    · simp [alookup, h0] at h
      simp [upsert, h0, ih h]

theorem keys_upsert_mem {k : κ} {v : α} {m : List (κ × α)}
    (h : k ∈ m.map Prod.fst) : (upsert k v m).map Prod.fst = m.map Prod.fst := by
  induction m with
  | nil => simp at h
  | cons e rest ih =>
    rcases e with ⟨k₀, v₀⟩
    by_cases h0 : k₀ = k
    · subst h0; simp [upsert]
    · have h1 : k ∈ rest.map Prod.fst := by
        rw [List.map_cons] at h
        rcases List.mem_cons.mp h with h' | h'
        · exact absurd (show k₀ = k from h'.symm) h0
        · exact h'
      simp [upsert, h0, ih h1]

theorem keys_upsert_not_mem {k : κ} {v : α} {m : List (κ × α)}
    (h : k ∉ m.map Prod.fst) :
    (upsert k v m).map Prod.fst = m.map Prod.fst ++ [k] := by
  induction m with
  | nil => simp [upsert]
  | cons e rest ih =>
    rcases e with ⟨k₀, v₀⟩
    rw [List.map_cons] at h
    have h0 : ¬ (k₀ = k) := fun hh => h (by simp [hh])
    have h2 : k ∉ rest.map Prod.fst := fun hh => h (by simp [hh])
    simp [upsert, h0, ih h2]

theorem upsert_not_mem_append {k : κ} {v : α} {m : List (κ × α)}
    (h : k ∉ m.map Prod.fst) : upsert k v m = m ++ [(k, v)] := by
  induction m with
  | nil => simp [upsert]
  | cons e rest ih =>
    rcases e with ⟨k₀, v₀⟩
    rw [List.map_cons] at h
    have h0 : ¬ (k₀ = k) := fun hh => h (by simp [hh])
    have h2 : k ∉ rest.map Prod.fst := fun hh => h (by simp [hh])
    simp [upsert, h0, ih h2]

theorem nodupkeys_upsert {k : κ} {v : α} {m : List (κ × α)}
    (h : (m.map Prod.fst).Nodup) : ((upsert k v m).map Prod.fst).Nodup := by
  by_cases hk : k ∈ m.map Prod.fst
  · rwa [keys_upsert_mem hk]
  · rw [keys_upsert_not_mem hk]
    rw [List.nodup_append]
    exact ⟨h, List.nodup_singleton k, by
      intro x hx hh
      rcases List.mem_singleton.mp hh with rfl
      exact hk hx⟩

theorem mem_upsert {e : κ × α} {k : κ} {v : α} {m : List (κ × α)}
    (h : e ∈ upsert k v m) : e = (k, v) ∨ e ∈ m := by
  induction m with
  | nil => simpa [upsert] using h
  | cons e₀ rest ih =>
    rcases e₀ with ⟨k₀, v₀⟩
    by_cases h0 : k₀ = k
    · subst h0
      simp [upsert] at h
      rcases h with h | h
      · exact Or.inl (by simp [h])
      · exact Or.inr (by simp [h])
    · simp [upsert, h0] at h
      rcases h with h | h
      · exact Or.inr (by simp [h])
      · rcases ih h with h' | h'
        · exact Or.inl h'
        · exact Or.inr (by simp [h'])

theorem mem_of_alookup_eq_some {k : κ} {v : α} {m : List (κ × α)}
    (h : alookup k m = some v) : (k, v) ∈ m := by
  induction m with
  | nil => simp [alookup] at h
  | cons e rest ih =>
    rcases e with ⟨k₀, v₀⟩
    by_cases h0 : k₀ = k
    · subst h0
      simp [alookup] at h
      simp [h]
    · simp [alookup, h0] at h
      simp [ih h]

theorem alookup_eq_some_of_mem {k : κ} {v : α} {m : List (κ × α)}
    (hn : (m.map Prod.fst).Nodup) (h : (k, v) ∈ m) : alookup k m = some v := by
  induction m with
  | nil => simp at h
  | cons e rest ih =>
    rcases e with ⟨k₀, v₀⟩
    rw [List.map_cons, List.nodup_cons] at hn
    rcases List.mem_cons.mp h with h' | h'
    · injection h'.symm with h1 h2
      subst h1
      subst h2
      simp [alookup]
    · have h0 : ¬ (k₀ = k) := by
        intro hh
        subst hh
        exact hn.1 (by simpa using List.mem_map_of_mem Prod.fst h')
      simp [alookup, h0, ih hn.2 h']

theorem alookup_eq_none_iff {k : κ} {m : List (κ × α)} :
    alookup k m = none ↔ k ∉ m.map Prod.fst := by
  induction m with
  | nil => simp [alookup]
  | cons e rest ih =>
    rcases e with ⟨k₀, v₀⟩
    by_cases h0 : k₀ = k
    · subst h0; simp [alookup]
    · rw [List.map_cons]
      simp only [alookup, h0, if_false, ih, List.mem_cons]
      constructor
      · intro hk hor
        rcases hor with hor | hor
        · exact h0 hor.symm
        · exact hk hor
      · intro hk hmem
        exact hk (Or.inr hmem)

theorem alookup_isSome_iff {k : κ} {m : List (κ × α)} :
    (alookup k m).isSome = true ↔ k ∈ m.map Prod.fst := by
  rcases h : alookup k m with _ | v
  · simpa [h] using alookup_eq_none_iff.mp h
  · simp only [Option.isSome_some, true_iff]
    by_contra hk
    rw [alookup_eq_none_iff.mpr hk] at h
    exact Option.noConfusion h

theorem upsert_append_left {k : κ} {v : α} {a b : List (κ × α)}
    (h : k ∈ a.map Prod.fst) : upsert k v (a ++ b) = upsert k v a ++ b := by
  induction a with
  | nil => simp at h
  | cons e rest ih =>
    rcases e with ⟨k₀, v₀⟩
    by_cases h0 : k₀ = k
    · subst h0; simp [upsert]
    · have h1 : k ∈ rest.map Prod.fst := by
        rw [List.map_cons] at h
        rcases List.mem_cons.mp h with h' | h'
        · exact absurd (show k₀ = k from h'.symm) h0
        · exact h'
      simp [upsert, h0, ih h1]

theorem upsert_append_right {k : κ} {v : α} {a b : List (κ × α)}
    (h : k ∉ a.map Prod.fst) : upsert k v (a ++ b) = a ++ upsert k v b := by
  induction a with
  | nil => simp
  | cons e rest ih =>
    rcases e with ⟨k₀, v₀⟩
    rw [List.map_cons] at h
    have h0 : ¬ (k₀ = k) := fun hh => h (by simp [hh])
    have h2 : k ∉ rest.map Prod.fst := fun hh => h (by simp [hh])
    simp [upsert, h0, ih h2]

theorem upsert_map_update {k : κ} {v : α} {a : List (κ × α)}
    (hn : (a.map Prod.fst).Nodup) (hk : k ∈ a.map Prod.fst) :
    upsert k v a = a.map (fun e => if e.1 = k then (k, v) else e) := by
  induction a with
  | nil => simp at hk
  | cons e rest ih =>
    rcases e with ⟨k₀, v₀⟩
    rw [List.map_cons, List.nodup_cons] at hn
    by_cases h0 : k₀ = k
    · subst h0
      have hrest : rest.map (fun e => if e.1 = k₀ then (k₀, v) else e) = rest := by
        have hcong : ∀ e ∈ rest, (if e.1 = k₀ then (k₀, v) else e) = id e := by
          intro e he
          have : ¬ (e.1 = k₀) := by
            intro hh
            exact hn.1 (by simpa [← hh] using List.mem_map_of_mem Prod.fst he)
          simp [this]
        rw [List.map_congr_left hcong, List.map_id]
      rw [show upsert k₀ v ((k₀, v₀) :: rest) = (k₀, v) :: rest from by simp [upsert]]
      simp [hrest]
    · have h1 : k ∈ rest.map Prod.fst := by
        rw [List.map_cons] at hk
        rcases List.mem_cons.mp hk with h' | h'
        · exact absurd (show k₀ = k from h'.symm) h0
        · exact h'
      simp [upsert, h0, ih hn.2 h1]

end AssocLemmas

/-! ## Lemmas: the bundle deduplication map -/

theorem lastWith_nil (k : BKey) : lastWith k [] = none := rfl

theorem lastWith_append (k : BKey) (a b : List TestResult) :
    lastWith k (a ++ b) = (lastWith k b).or (lastWith k a) := by
  simp [lastWith, List.find?_append]

theorem lastWith_concat (k : BKey) (a : List TestResult) (x : TestResult) :
    lastWith k (a ++ [x]) = if bkD x = k then some x else lastWith k a := by
  rw [lastWith_append]
  by_cases h : bkD x = k
  · simp [lastWith, List.find?, h]
  · simp [lastWith, List.find?, h]

theorem lastWith_eq_some {k : BKey} {l : List TestResult} {x : TestResult}
    (h : lastWith k l = some x) : x ∈ l ∧ bkD x = k := by
  refine ⟨?_, ?_⟩
  · have := List.mem_of_find?_eq_some h
    exact List.mem_reverse.mp this
  · have := List.find?_some h
    exact of_decide_eq_true this

theorem lastWith_filter_sub {k : BKey} {l : List TestResult} {p : TestResult → Bool}
    (hp : ∀ r, bkD r = k → p r = true) :
    lastWith k (l.filter p) = lastWith k l := by
  induction l using List.reverseRecOn with
  | nil => simp
  | append_singleton l x ih =>
    rw [List.filter_append]
    by_cases hx : p x
    · rw [show List.filter p [x] = [x] from by simp [hx], lastWith_concat, lastWith_concat, ih]
    · have hk : ¬ (bkD x = k) := fun hh => hx (hp x hh)
      rw [show List.filter p [x] = [] from by simp [hx], List.append_nil, ih,
        lastWith_concat]
      simp [hk]

theorem alookup_foldl_bupsert (k : BKey) (l : List TestResult) (acc : List (BKey × TestResult)) :
    alookup k (l.foldl bupsert acc) = (lastWith k l).or (alookup k acc) := by
  induction l using List.reverseRecOn with
  | nil => simp [lastWith]
  | append_singleton l x ih =>
    rw [List.foldl_append]
    simp only [List.foldl_cons, List.foldl_nil]
    rw [lastWith_concat]
    by_cases h : bkD x = k
    · rw [show bupsert (l.foldl bupsert acc) x = upsert k x (l.foldl bupsert acc) from by
        rw [bupsert, h]]
      simp [alookup_upsert_self, h]
    · rw [bupsert, alookup_upsert_ne (Ne.symm h)]
      simp [h, ih]

theorem entry_key_foldl_bupsert {l : List TestResult} {acc : List (BKey × TestResult)}
    (hacc : ∀ e ∈ acc, e.1 = bkD e.2) : ∀ e ∈ l.foldl bupsert acc, e.1 = bkD e.2 := by
  induction l generalizing acc with
  | nil => exact hacc
  | cons x l ih =>
    intro e he
    refine @ih (bupsert acc x) ?_ e he
    intro e' he'
    rcases mem_upsert he' with h | h
    · simp [h, bupsert]
    · exact hacc e' h

theorem nodupkeys_foldl_bupsert {l : List TestResult} {acc : List (BKey × TestResult)}
    (hacc : (acc.map Prod.fst).Nodup) : ((l.foldl bupsert acc).map Prod.fst).Nodup := by
  induction l generalizing acc with
  | nil => exact hacc
  | cons x l ih => exact ih (nodupkeys_upsert hacc)

theorem mem_vals_bundleMap_iff {x : TestResult} {l : List TestResult} :
    x ∈ (l.foldl bupsert []).map Prod.snd ↔ lastWith (bkD x) l = some x := by
  constructor
  · intro hx
    rcases List.mem_map.mp hx with ⟨e, he, hsnd⟩
    have hk := @entry_key_foldl_bupsert l [] (by simp) e he
    have hl : alookup e.1 (l.foldl bupsert []) = some e.2 := by
      refine alookup_eq_some_of_mem (nodupkeys_foldl_bupsert (by simp)) ?_
      simpa using he
    rw [alookup_foldl_bupsert] at hl
    rw [show alookup e.1 ([] : List (BKey × TestResult)) = none from rfl] at hl
    rw [Option.or_none] at hl
    rw [hsnd] at hl hk
    rwa [← hk]
  · intro h
    have hl : alookup (bkD x) (l.foldl bupsert []) = some x := by
      rw [alookup_foldl_bupsert, h]
      rfl
    exact List.mem_map.mpr ⟨(bkD x, x), mem_of_alookup_eq_some hl, rfl⟩

theorem foldl_bupsert_distinct {l : List TestResult}
    (h : l.Pairwise (fun a b => bkD a ≠ bkD b)) :
    l.foldl bupsert [] = l.map (fun r => (bkD r, r)) := by
  induction l using List.reverseRecOn with
  | nil => rfl
  | append_singleton l x ih =>
    rcases List.pairwise_append.mp h with ⟨h1, _, h3⟩
    rw [List.foldl_append]
    simp only [List.foldl_cons, List.foldl_nil]
    rw [ih h1, bupsert]
    have hnot : bkD x ∉ (l.map (fun r => (bkD r, r))).map Prod.fst := by
      intro hmem
      rcases List.mem_map.mp hmem with ⟨e, he, hkey⟩
      rcases List.mem_map.mp he with ⟨r, hr, rfl⟩
      exact h3 r hr x (by simp) (by simpa using hkey)
    rw [upsert_not_mem_append hnot, List.map_append]
    rfl

/-- The central structure of `dict.update`-style folding on top of an
existing keyed prefix `T`: entries of `T` keep their position, the value at
each key becomes the last write from `X` (if any), and writes at fresh keys
accumulate behind. -/
theorem foldl_bupsert_on_prefix (T : List (BKey × TestResult)) (X : List TestResult)
    (hT : (T.map Prod.fst).Nodup) :
    X.foldl bupsert T =
      T.map (fun e => (e.1, (lastWith e.1 X).getD e.2)) ++
      (X.filter (fun r => !(decide (bkD r ∈ T.map Prod.fst)))).foldl bupsert [] := by
  induction X using List.reverseRecOn with
  | nil =>
    simp [lastWith]
  | append_singleton X x ih =>
    rw [List.foldl_append]
    simp only [List.foldl_cons, List.foldl_nil]
    rw [ih, bupsert]
    by_cases hx : bkD x ∈ T.map Prod.fst
    · have hkeys : (T.map (fun e => (e.1, (lastWith e.1 X).getD e.2))).map Prod.fst
          = T.map Prod.fst := by
        rw [List.map_map]
        rfl
      rw [upsert_append_left (by rw [hkeys]; exact hx)]
      rw [upsert_map_update (by rw [hkeys]; exact hT) (by rw [hkeys]; exact hx)]
      rw [List.map_map]
      have hfil : (X ++ [x]).filter (fun r => !(decide (bkD r ∈ T.map Prod.fst)))
          = X.filter (fun r => !(decide (bkD r ∈ T.map Prod.fst))) := by
        rw [List.filter_append]
        simp [hx]
      rw [hfil]
      congr 1
      apply List.map_congr_left
      intro e he
      by_cases hke : e.1 = bkD x
      · simp [Function.comp, hke, lastWith_concat]
      · simp [Function.comp, hke, lastWith_concat, Ne.symm hke]
    · rw [upsert_append_right (by
        intro hmem
        rw [List.map_map] at hmem
        exact hx (by simpa using hmem))]
      have hfil : (X ++ [x]).filter (fun r => !(decide (bkD r ∈ T.map Prod.fst)))
          = X.filter (fun r => !(decide (bkD r ∈ T.map Prod.fst))) ++ [x] := by
        rw [List.filter_append]
        simp [hx]
      rw [hfil, List.foldl_append]
      simp only [List.foldl_cons, List.foldl_nil]
      congr 1
      apply List.map_congr_left
      intro e he
      rw [lastWith_concat, if_neg ?_]
      intro hh
      exact hx (hh ▸ List.mem_map_of_mem Prod.fst he)

/-! ## Lemmas: the stable descending sort -/

theorem head?_isort_max {l : List TestResult} {h : TestResult}
    (hh : (l.insertionSort tsDesc).head? = some h) :
    h ∈ l ∧ ∀ x ∈ l, tsv x ≤ tsv h := by
  have hperm := List.perm_insertionSort tsDesc l
  have hsort := List.sorted_insertionSort tsDesc l
  rcases hs : l.insertionSort tsDesc with _ | ⟨a, t⟩
  · rw [hs] at hh
    exact absurd hh (by simp)
  · rw [hs] at hh hperm hsort
    have ha : a = h := by simpa using hh
    subst ha
    constructor
    · exact hperm.mem_iff.mp (List.mem_cons_self a t)
    · intro x hx
      rcases List.mem_cons.mp (hperm.mem_iff.mpr hx) with h' | h'
      · exact le_of_eq (congrArg tsv h')
      · exact List.rel_of_sorted_cons hsort x h'

theorem isort_cons_dominant {s : TestResult} {l : List TestResult}
    (h : ∀ x ∈ l, tsv x ≤ tsv s) :
    (s :: l).insertionSort tsDesc = s :: l.insertionSort tsDesc :=
  List.insertionSort_cons tsDesc (fun b hb => h b hb)

theorem isort_append_dominant {T rest : List TestResult}
    (hs : T.Sorted tsDesc) (hd : ∀ t ∈ T, ∀ x ∈ rest, tsv x ≤ tsv t) :
    (T ++ rest).insertionSort tsDesc = T ++ rest.insertionSort tsDesc := by
  induction T with
  | nil => simp
  | cons a T ih =>
    rcases List.sorted_cons.mp hs with ⟨ha, hs'⟩
    have hdom : ∀ x ∈ T ++ rest, tsv x ≤ tsv a := by
      intro x hx
      rcases List.mem_append.mp hx with h' | h'
      · exact ha x h'
      · exact hd a (List.mem_cons_self a T) x h'
    rw [List.cons_append, isort_cons_dominant hdom,
      ih hs' (fun t ht x hx => hd t (List.mem_cons_of_mem a ht) x hx)]
    rfl

/-! ## Lemmas: merge_bundle_tests characterization -/

theorem merge_bundle_tests_eq_some_iff {N E : List TestResult} {L : Option Nat}
    {out : List TestResult} :
    merge_bundle_tests N E L = some out ↔
      ((E ++ N).all (fun r => (build_key r).isSome) = true ∧
       (bundleVals N E).all tsOk = true ∧
       out = (match L with
              | some l => ((bundleVals N E).insertionSort tsDesc).take l
              | none => (bundleVals N E).insertionSort tsDesc)) := by
  unfold merge_bundle_tests bundleVals
  split_ifs with h1 h2
  · simp only [h1, h2, Option.some_inj, true_and]
    exact ⟨fun h => h.symm, fun h => h.symm⟩
  · simp only [h1, h2, true_and, false_and, and_false]
    simp
  · simp [h1]

theorem mem_bundleVals_iff {x : TestResult} {N E : List TestResult} :
    x ∈ bundleVals N E ↔ lastWith (bkD x) (E ++ N) = some x :=
  mem_vals_bundleMap_iff

theorem bundleVals_pairwise_keys (N E : List TestResult) :
    (bundleVals N E).Pairwise (fun a b => bkD a ≠ bkD b) := by
  have hkeys : ((E ++ N).foldl bupsert []).map Prod.fst
      = (bundleVals N E).map bkD := by
    unfold bundleVals
    rw [List.map_map]
    apply List.map_congr_left
    intro e he
    exact entry_key_foldl_bupsert (by simp) e he
  have hnd : ((bundleVals N E).map bkD).Nodup := by
    rw [← hkeys]
    exact nodupkeys_foldl_bupsert (by simp)
  rw [List.Nodup, List.pairwise_map] at hnd
  exact hnd

theorem bundleVals_sub {x : TestResult} {N E : List TestResult}
    (h : x ∈ bundleVals N E) : x ∈ E ++ N :=
  (lastWith_eq_some (mem_bundleVals_iff.mp h)).1

/-- Re-merging the same batch into a freshly merged bundle list returns it
unchanged. -/
theorem merge_bundle_idem {N E out : List TestResult} {L : Option Nat}
    (h : merge_bundle_tests N E L = some out) :
    merge_bundle_tests N out L = some out := by
  rcases merge_bundle_tests_eq_some_iff.mp h with ⟨hbk, hts, hout⟩
  have hsortsort : ((bundleVals N E).insertionSort tsDesc).Sorted tsDesc :=
    List.sorted_insertionSort tsDesc _
  have hperm : ((bundleVals N E).insertionSort tsDesc).Perm (bundleVals N E) :=
    List.perm_insertionSort tsDesc _
  obtain ⟨D, hD⟩ : ∃ D, (bundleVals N E).insertionSort tsDesc = out ++ D := by
    cases L with
    | none => exact ⟨[], by rw [hout]; simp⟩
    | some l =>
      refine ⟨((bundleVals N E).insertionSort tsDesc).drop l, ?_⟩
      rw [hout]
      exact (List.take_append_drop l _).symm
  have hmemout : ∀ x ∈ out, x ∈ bundleVals N E := fun x hx =>
    hperm.mem_iff.mp (hD ▸ List.mem_append_left D hx)
  have hsortD := hD ▸ hsortsort
  have hsortout : out.Sorted tsDesc := (List.pairwise_append.mp hsortD).1
  have hdomD : ∀ t ∈ out, ∀ d ∈ D, tsv d ≤ tsv t := by
    intro t ht d hd
    exact (List.pairwise_append.mp hsortD).2.2 t ht d hd
  have hsortpw : ((bundleVals N E).insertionSort tsDesc).Pairwise
      (fun a b => bkD a ≠ bkD b) :=
    (hperm.pairwise_iff (fun hab => Ne.symm hab)).mpr (bundleVals_pairwise_keys N E)
  have houtpw : out.Pairwise (fun a b => bkD a ≠ bkD b) := by
    have hsub : out.Sublist ((bundleVals N E).insertionSort tsDesc) :=
      hD ▸ List.sublist_append_left out D
    exact hsortpw.sublist hsub
  have hbk' := List.all_eq_true.mp hbk
  have hts' := List.all_eq_true.mp hts
  have hbk2 : (out ++ N).all (fun r => (build_key r).isSome) = true := by
    rw [List.all_eq_true]
    intro r hr
    rcases List.mem_append.mp hr with h' | h'
    · exact hbk' r (bundleVals_sub (hmemout r h'))
    · exact hbk' r (List.mem_append_right E h')
  have hT : out.foldl bupsert [] = out.map (fun r => (bkD r, r)) :=
    foldl_bupsert_distinct houtpw
  have hTkeys : ((out.map (fun r => (bkD r, r))).map Prod.fst) = out.map bkD := by
    rw [List.map_map]
    rfl
  have hTnodup : ((out.map (fun r => (bkD r, r))).map Prod.fst).Nodup := by
    rw [hTkeys]
    exact List.pairwise_map.mpr houtpw
  have hsplit := foldl_bupsert_on_prefix (out.map (fun r => (bkD r, r))) N hTnodup
  rw [hTkeys] at hsplit
  have hTfix : (out.map (fun r => (bkD r, r))).map
      (fun e => (e.1, (lastWith e.1 N).getD e.2)) = out.map (fun r => (bkD r, r)) := by
    rw [List.map_map]
    apply List.map_congr_left
    intro r hr
    have hlw : (lastWith (bkD r) N).getD r = r := by
      rcases hl : lastWith (bkD r) N with _ | y
      · rfl
      · have h1 : lastWith (bkD r) (E ++ N) = some r := mem_bundleVals_iff.mp (hmemout r hr)
        rw [lastWith_append, hl] at h1
        simp only [Option.or] at h1
        rw [Option.getD_some]
        exact Option.some_inj.mp h1
    simp [Function.comp, hlw]
  rw [hTfix] at hsplit
  have hmap2 : (out ++ N).foldl bupsert [] =
      out.map (fun r => (bkD r, r)) ++
        ((N.filter (fun r => !(decide (bkD r ∈ out.map bkD)))).foldl bupsert []) := by
    rw [List.foldl_append, hT, hsplit]
  have hvals2 : bundleVals N out =
      out ++ ((N.filter (fun r => !(decide (bkD r ∈ out.map bkD)))).foldl
        bupsert []).map Prod.snd := by
    unfold bundleVals
    rw [hmap2, List.map_append, List.map_map]
    congr 1
    exact (List.map_congr_left (fun r hr => rfl)).trans (List.map_id out)
  have hextraD : ∀ v ∈ ((N.filter (fun r => !(decide (bkD r ∈ out.map bkD)))).foldl
      bupsert []).map Prod.snd, v ∈ D := by
    intro v hv
    have hlw := mem_vals_bundleMap_iff.mp hv
    have hvmemf := (lastWith_eq_some hlw).1
    have hvkey : ¬ (bkD v ∈ out.map bkD) := by
      have hp := List.of_mem_filter hvmemf
      intro hmem
      rw [show (decide (bkD v ∈ out.map bkD)) = true from decide_eq_true hmem] at hp
      exact Bool.noConfusion hp
    have hfix : lastWith (bkD v) (N.filter (fun r => !(decide (bkD r ∈ out.map bkD))))
        = lastWith (bkD v) N := by
      apply lastWith_filter_sub
      intro r hrk
      rw [hrk, show (decide (bkD v ∈ out.map bkD)) = false from decide_eq_false hvkey]
      rfl
    have hNv : lastWith (bkD v) N = some v := by rw [← hfix]; exact hlw
    have hEv : lastWith (bkD v) (E ++ N) = some v := by
      rw [lastWith_append, hNv]
      simp only [Option.or]
    have hvvals : v ∈ bundleVals N E := mem_bundleVals_iff.mpr hEv
    have hvsorted : v ∈ out ++ D := hD ▸ hperm.mem_iff.mpr hvvals
    rcases List.mem_append.mp hvsorted with h' | h'
    · exact absurd (List.mem_map_of_mem bkD h') hvkey
    · exact h'
  have hts2 : (bundleVals N out).all tsOk = true := by
    rw [List.all_eq_true]
    intro r hr
    rw [hvals2] at hr
    rcases List.mem_append.mp hr with h' | h'
    · exact hts' r (hmemout r h')
    · have hrD := hextraD r h'
      have : r ∈ (bundleVals N E).insertionSort tsDesc := hD ▸ List.mem_append_right out hrD
      exact hts' r (hperm.mem_iff.mp this)
  have hsort2 : (bundleVals N out).insertionSort tsDesc =
      out ++ (((N.filter (fun r => !(decide (bkD r ∈ out.map bkD)))).foldl
        bupsert []).map Prod.snd).insertionSort tsDesc := by
    rw [hvals2]
    exact isort_append_dominant hsortout (fun t ht x hx => hdomD t ht x (hextraD x hx))
  rw [merge_bundle_tests_eq_some_iff]
  refine ⟨hbk2, hts2, ?_⟩
  cases L with
  | none =>
    have hDnil : D = [] := by
      have hlen := congrArg List.length hD
      rw [hout] at hlen
      simp at hlen
      exact hlen
    have hextnil : (((N.filter (fun r => !(decide (bkD r ∈ out.map bkD)))).foldl
        bupsert []).map Prod.snd) = [] := by
      rw [List.eq_nil_iff_forall_not_mem]
      intro v hv
      have := hextraD v hv
      rw [hDnil] at this
      exact List.not_mem_nil v this
    show out = (bundleVals N out).insertionSort tsDesc
    rw [hsort2, hextnil]
    simp
  | some l =>
    rcases Nat.le_total ((bundleVals N E).insertionSort tsDesc).length l with hll | hll
    · have houts : out = (bundleVals N E).insertionSort tsDesc := by
        rw [hout]
        exact List.take_of_length_le hll
      have hDnil : D = [] := by
        have hlen := congrArg List.length hD
        rw [← houts] at hlen
        simp at hlen
        exact hlen
      have hextnil : (((N.filter (fun r => !(decide (bkD r ∈ out.map bkD)))).foldl
          bupsert []).map Prod.snd) = [] := by
        rw [List.eq_nil_iff_forall_not_mem]
        intro v hv
        have := hextraD v hv
        rw [hDnil] at this
        exact List.not_mem_nil v this
      show out = List.take l ((bundleVals N out).insertionSort tsDesc)
      rw [hsort2, hextnil]
      simp only [List.insertionSort, List.append_nil]
      have hlo : out.length ≤ l := by
        rw [houts]
        exact hll
      exact (List.take_of_length_le hlo).symm
    · have hlenout : out.length = l := by
        rw [hout, List.length_take]
        omega
      show out = List.take l ((bundleVals N out).insertionSort tsDesc)
      rw [hsort2, ← hlenout, List.take_left]

/-! ## Lemmas: the release grouping -/

theorem mem_grpWith_iff {x : TestResult} {k : VKey} {l : List TestResult} :
    x ∈ grpWith k l ↔ x ∈ l ∧ get_version_key x = k := by
  unfold grpWith
  rw [List.mem_filter]
  simp

theorem grpWith_append (k : VKey) (a b : List TestResult) :
    grpWith k (a ++ b) = grpWith k a ++ grpWith k b := by
  simp [grpWith]

section FirstOccsLemmas

variable {κ : Type} [DecidableEq κ]

theorem mem_firstOccs_iff {a : κ} {l : List κ} : a ∈ firstOccs l ↔ a ∈ l := by
  induction l with
  | nil => simp [firstOccs]
  | cons k r ih =>
    by_cases h : a = k
    · subst h
      simp [firstOccs]
    · simp only [firstOccs, List.mem_cons, List.mem_filter]
      constructor
      · intro hh
        rcases hh with hh | hh
        · exact Or.inl hh
        · exact Or.inr (ih.mp hh.1)
      · intro hh
        rcases hh with hh | hh
        · exact Or.inl hh
        · exact Or.inr ⟨ih.mpr hh, by simp [h]⟩

theorem nodup_firstOccs (l : List κ) : (firstOccs l).Nodup := by
  induction l with
  | nil => simp [firstOccs]
  | cons k r ih =>
    rw [firstOccs, List.nodup_cons]
    constructor
    · intro hmem
      rcases List.mem_filter.mp hmem with ⟨_, hne⟩
      simp at hne
    · exact ih.filter _

theorem firstOccs_of_nodup {l : List κ} (h : l.Nodup) : firstOccs l = l := by
  induction l with
  | nil => rfl
  | cons k r ih =>
    rw [List.nodup_cons] at h
    rw [firstOccs, ih h.2]
    congr 1
    apply (List.filter_eq_self).mpr
    intro a ha
    simp only [decide_eq_true_eq]
    intro hh
    subst hh
    exact h.1 ha

theorem firstOccs_concat (l : List κ) (k : κ) :
    firstOccs (l ++ [k]) = if k ∈ l then firstOccs l else firstOccs l ++ [k] := by
  induction l with
  | nil => simp [firstOccs]
  | cons a l ih =>
    rw [List.cons_append, firstOccs, ih, firstOccs]
    by_cases hk : k ∈ l
    · simp [hk]
    · by_cases hka : k = a
      · subst hka
        simp [hk, List.filter_append]
      · have : (k ∈ a :: l) = False := by
          simp [hka, hk]
        simp only [this, if_false, hk, if_false, List.mem_cons]
        rw [List.filter_append]
        simp [hka]

theorem firstOccs_append_subset {l₁ l₂ : List κ} (h : ∀ a ∈ l₂, a ∈ l₁) :
    firstOccs (l₁ ++ l₂) = firstOccs l₁ := by
  induction l₂ using List.reverseRecOn with
  | nil => simp
  | append_singleton l₂ x ih =>
    have hx : x ∈ l₁ := h x (by simp)
    rw [← List.append_assoc, firstOccs_concat, if_pos (by simp [hx])]
    exact ih (fun a ha => h a (by simp [ha]))

end FirstOccsLemmas

theorem alookup_appendGroup_self {κ α : Type} [DecidableEq κ] (k : κ) (v : α)
    (g : List (κ × List α)) :
    alookup k (appendGroup k v g) = some ((alookup k g).getD [] ++ [v]) := by
  induction g with
  | nil => simp [appendGroup, alookup]
  | cons e rest ih =>
    rcases e with ⟨k₀, vs⟩
    by_cases h0 : k₀ = k
    · subst h0
      simp [appendGroup, alookup]
    · simp [appendGroup, h0, alookup, ih]

theorem appendGroup_not_mem {κ α : Type} [DecidableEq κ] {k : κ} {v : α}
    {m : List (κ × List α)} (h : k ∉ m.map Prod.fst) :
    appendGroup k v m = m ++ [(k, [v])] := by
  induction m with
  | nil => simp [appendGroup]
  | cons e rest ih =>
    rcases e with ⟨k₀, vs⟩
    rw [List.map_cons] at h
    have h0 : ¬ (k₀ = k) := fun hh => h (by simp [hh])
    have h2 : k ∉ rest.map Prod.fst := fun hh => h (by simp [hh])
    simp [appendGroup, h0, ih h2]

theorem appendGroup_canonical {κ α : Type} [DecidableEq κ] {K : List κ} {g : κ → List α}
    {k : κ} (v : α) (hnd : K.Nodup) (hk : k ∈ K) :
    appendGroup k v (K.map (fun k' => (k', g k'))) =
      K.map (fun k' => (k', if k' = k then g k' ++ [v] else g k')) := by
  induction K with
  | nil => simp at hk
  | cons a ks ih =>
    rw [List.nodup_cons] at hnd
    by_cases ha : a = k
    · subst ha
      rw [List.map_cons, List.map_cons]
      rw [show appendGroup a v ((a, g a) :: ks.map (fun k' => (k', g k')))
          = (a, g a ++ [v]) :: ks.map (fun k' => (k', g k')) from by simp [appendGroup]]
      simp only [if_pos rfl]
      congr 1
      apply List.map_congr_left
      intro k' hk'
      have : ¬ (k' = a) := fun hh => hnd.1 (hh ▸ hk')
      simp [this]
    · have hk' : k ∈ ks := by
        rcases List.mem_cons.mp hk with hh | hh
        · exact absurd hh.symm ha
        · exact hh
      rw [List.map_cons, List.map_cons]
      rw [show appendGroup k v ((a, g a) :: ks.map (fun k' => (k', g k')))
          = (a, g a) :: appendGroup k v (ks.map (fun k' => (k', g k'))) from by
        simp [appendGroup, ha]]
      rw [ih hnd.2 hk']
      simp [ha]

theorem grpWith_eq_nil {k : VKey} {l : List TestResult}
    (h : k ∉ l.map get_version_key) : grpWith k l = [] := by
  unfold grpWith
  rw [List.filter_eq_nil_iff]
  intro r hr
  simp only [decide_eq_true_eq]
  intro hh
  exact h (hh ▸ List.mem_map_of_mem get_version_key hr)

/-- The grouping fold produces exactly the per-key groups, keyed in first
occurrence order. -/
theorem foldl_gappend_struct (l : List TestResult) :
    l.foldl gappend [] =
      (firstOccs (l.map get_version_key)).map (fun k => (k, grpWith k l)) := by
  induction l using List.reverseRecOn with
  | nil => rfl
  | append_singleton l x ih =>
    rw [List.foldl_append]
    simp only [List.foldl_cons, List.foldl_nil]
    rw [ih, gappend, List.map_append, List.map_singleton, firstOccs_concat]
    by_cases hx : get_version_key x ∈ l.map get_version_key
    · rw [if_pos hx]
      rw [appendGroup_canonical x (nodup_firstOccs _) (mem_firstOccs_iff.mpr hx)]
      apply List.map_congr_left
      intro k hkK
      by_cases hkx : k = get_version_key x
      · rw [if_pos hkx, grpWith_append]
        rw [show grpWith k [x] = [x] from by simp [grpWith, hkx.symm]]
      · rw [if_neg hkx, grpWith_append]
        rw [show grpWith k [x] = [] from by
          simp only [grpWith, List.filter]
          rw [show (decide (get_version_key x = k)) = false from
            decide_eq_false (fun hh => hkx hh.symm)]]
        simp
    · rw [if_neg hx]
      have hkeys : ∀ k ∈ firstOccs (l.map get_version_key), ¬ (k = get_version_key x) := by
        intro k hkK hh
        exact hx (hh ▸ mem_firstOccs_iff.mp hkK)
      have hnotm : get_version_key x ∉
          ((firstOccs (l.map get_version_key)).map (fun k => (k, grpWith k l))).map
            Prod.fst := by
        rw [List.map_map]
        intro hmem
        rcases List.mem_map.mp hmem with ⟨k, hk, hke⟩
        exact hkeys k hk (by simpa using hke)
      rw [appendGroup_not_mem hnotm, List.map_append, List.map_singleton]
      congr 1
      · apply List.map_congr_left
        intro k hkK
        rw [grpWith_append]
        rw [show grpWith k [x] = [] from by
          simp only [grpWith, List.filter]
          rw [show (decide (get_version_key x = k)) = false from
            decide_eq_false (fun hh => hkeys k hkK hh.symm)]]
        simp
      · rw [grpWith_append, grpWith_eq_nil hx]
        rw [show grpWith (get_version_key x) [x] = [x] from by simp [grpWith]]
        simp

/-! ## Lemmas: the selection of one best result per group -/

theorem select_result_spec {l : List TestResult} {s : TestResult}
    (h : select_result l = some (some s)) :
    s ∈ l ∧
      ((s.test_status = STATUS_SUCCESS ∧ tsOk s = true ∧
          (∀ x ∈ l, x.test_status = STATUS_SUCCESS → tsv x ≤ tsv s ∧ tsOk x = true)) ∨
       ((¬ s.test_status = STATUS_SUCCESS) ∧
          (∀ x ∈ l, ¬ x.test_status = STATUS_SUCCESS) ∧
          (∀ x ∈ l, tsv x ≤ tsv s ∧ tsOk x = true))) := by
  unfold select_result at h
  by_cases hsucc : (l.filter (fun r => r.test_status == STATUS_SUCCESS)).isEmpty
  · rw [if_pos hsucc] at h
    have hnosucc : ∀ x ∈ l, ¬ x.test_status = STATUS_SUCCESS := by
      intro x hx hs
      rw [List.isEmpty_iff] at hsucc
      have hmem : x ∈ l.filter (fun r => r.test_status == STATUS_SUCCESS) :=
        List.mem_filter.mpr ⟨hx, by simp [hs]⟩
      rw [hsucc] at hmem
      exact List.not_mem_nil x hmem
    have hoeq : l.filter (fun r => !(r.test_status == STATUS_SUCCESS)) = l := by
      rw [List.filter_eq_self]
      intro x hx
      simp [hnosucc x hx]
    rw [hoeq] at h
    by_cases hother : l.isEmpty
    · rw [if_pos hother] at h
      exact absurd (Option.some_inj.mp h) (by simp)
    · rw [if_neg hother] at h
      by_cases hts : l.all tsOk
      · rw [if_pos hts] at h
        have hmax := head?_isort_max (Option.some_inj.mp h)
        refine ⟨hmax.1, Or.inr ⟨hnosucc s hmax.1, hnosucc, ?_⟩⟩
        intro x hx
        exact ⟨hmax.2 x hx, List.all_eq_true.mp hts x hx⟩
      · rw [if_neg hts] at h
        exact absurd h (by simp)
  · rw [if_neg hsucc] at h
    by_cases hts : (l.filter (fun r => r.test_status == STATUS_SUCCESS)).all tsOk
    · rw [if_pos hts] at h
      have hmax := head?_isort_max (Option.some_inj.mp h)
      have hsmem := List.mem_filter.mp hmax.1
      have hssucc : s.test_status = STATUS_SUCCESS := by simpa using hsmem.2
      refine ⟨hsmem.1, Or.inl ⟨hssucc, ?_, ?_⟩⟩
      · exact List.all_eq_true.mp hts s hmax.1
      · intro x hx hxs
        have hxf : x ∈ l.filter (fun r => r.test_status == STATUS_SUCCESS) :=
          List.mem_filter.mpr ⟨hx, by simp [hxs]⟩
        exact ⟨hmax.2 x hxf, List.all_eq_true.mp hts x hxf⟩
    · rw [if_neg hts] at h
      exact absurd h (by simp)

theorem select_result_nonempty {l : List TestResult} {o : Option TestResult}
    (hl : ¬ l = []) (h : select_result l = some o) : ∃ s, o = some s := by
  unfold select_result at h
  by_cases hsucc : (l.filter (fun r => r.test_status == STATUS_SUCCESS)).isEmpty
  · rw [if_pos hsucc] at h
    have hoeq : l.filter (fun r => !(r.test_status == STATUS_SUCCESS)) = l := by
      rw [List.filter_eq_self]
      intro x hx
      have : ¬ x.test_status = STATUS_SUCCESS := by
        intro hs
        rw [List.isEmpty_iff] at hsucc
        have hmem : x ∈ l.filter (fun r => r.test_status == STATUS_SUCCESS) :=
          List.mem_filter.mpr ⟨hx, by simp [hs]⟩
        rw [hsucc] at hmem
        exact List.not_mem_nil x hmem
      simp [this]
    rw [hoeq] at h
    rw [if_neg (by simpa using hl)] at h
    by_cases hts : l.all tsOk
    · rw [if_pos hts] at h
      rcases hhead : (l.insertionSort tsDesc).head? with _ | s
      · rcases hnil : l.insertionSort tsDesc with _ | ⟨a, t⟩
        · have hlen := congrArg List.length hnil
          rw [List.length_insertionSort] at hlen
          exact absurd (List.eq_nil_of_length_eq_zero hlen) hl
        · rw [hnil] at hhead
          exact absurd hhead (by simp)
      · rw [hhead] at h
        exact ⟨s, (Option.some_inj.mp h).symm⟩
    · rw [if_neg hts] at h
      exact absurd h (by simp)
  · rw [if_neg hsucc] at h
    by_cases hts : (l.filter (fun r => r.test_status == STATUS_SUCCESS)).all tsOk
    · rw [if_pos hts] at h
      rcases hhead : ((l.filter (fun r => r.test_status == STATUS_SUCCESS)).insertionSort
          tsDesc).head? with _ | s
      · rcases hnil : (l.filter (fun r => r.test_status == STATUS_SUCCESS)).insertionSort
            tsDesc with _ | ⟨a, t⟩
        · have hlen := congrArg List.length hnil
          rw [List.length_insertionSort] at hlen
          exact absurd (List.isEmpty_iff.mpr (List.eq_nil_of_length_eq_zero hlen)) hsucc
        · rw [hnil] at hhead
          exact absurd hhead (by simp)
      · rw [hhead] at h
        exact ⟨s, (Option.some_inj.mp h).symm⟩
    · rw [if_neg hts] at h
      exact absurd h (by simp)

theorem select_result_cons_success {s : TestResult} {l : List TestResult}
    (hs : s.test_status = STATUS_SUCCESS) (hts : tsOk s = true)
    (hmax : ∀ x ∈ l, x.test_status = STATUS_SUCCESS → tsv x ≤ tsv s ∧ tsOk x = true) :
    select_result (s :: l) = some (some s) := by
  have hfs : (s :: l).filter (fun r => r.test_status == STATUS_SUCCESS)
      = s :: l.filter (fun r => r.test_status == STATUS_SUCCESS) := by
    simp [List.filter_cons, hs]
  unfold select_result
  rw [hfs]
  rw [if_neg (by simp)]
  rw [if_pos (by
    rw [List.all_cons, Bool.and_eq_true]
    refine ⟨hts, ?_⟩
    rw [List.all_eq_true]
    intro x hx
    have hxm := List.mem_filter.mp hx
    exact (hmax x hxm.1 (by simpa using hxm.2)).2)]
  rw [isort_cons_dominant (by
    intro x hx
    have hxm := List.mem_filter.mp hx
    exact (hmax x hxm.1 (by simpa using hxm.2)).1)]
  rfl

theorem select_result_cons_nonsuccess {s : TestResult} {l : List TestResult}
    (hs : ¬ s.test_status = STATUS_SUCCESS)
    (hnos : ∀ x ∈ l, ¬ x.test_status = STATUS_SUCCESS)
    (hts : tsOk s = true)
    (hmax : ∀ x ∈ l, tsv x ≤ tsv s ∧ tsOk x = true) :
    select_result (s :: l) = some (some s) := by
  have hfs : (s :: l).filter (fun r => r.test_status == STATUS_SUCCESS) = [] := by
    rw [List.filter_eq_nil_iff]
    intro x hx
    rcases List.mem_cons.mp hx with hh | hh
    · simpa [hh] using hs
    · simpa using hnos x hh
  have hfo : (s :: l).filter (fun r => !(r.test_status == STATUS_SUCCESS)) = s :: l := by
    rw [List.filter_eq_self]
    intro x hx
    rcases List.mem_cons.mp hx with hh | hh
    · simpa [hh] using hs
    · simpa using hnos x hh
  unfold select_result
  rw [hfs, hfo]
  rw [if_pos (by simp)]
  rw [if_neg (by simp)]
  rw [if_pos (by
    rw [List.all_cons, Bool.and_eq_true]
    refine ⟨hts, ?_⟩
    rw [List.all_eq_true]
    intro x hx
    exact (hmax x hx).2)]
  rw [isort_cons_dominant (fun x hx => (hmax x hx).1)]
  rfl

/-! ## Lemmas: the selection loop -/

theorem collect_selected_eq_of_forall₂ {groups : List (VKey × List TestResult)}
    {final : List TestResult}
    (h : List.Forall₂ (fun g s => select_result g.2 = some (some s)) groups final) :
    collect_selected groups = some final := by
  induction h with
  | nil => rfl
  | cons hgs _ ih =>
    rw [collect_selected]
    rename_i g s gs rest _
    rw [hgs, ih]
    rfl

theorem collect_selected_forall₂_of_eq {groups : List (VKey × List TestResult)}
    {final : List TestResult}
    (hne : ∀ g ∈ groups, ¬ g.2 = [])
    (h : collect_selected groups = some final) :
    List.Forall₂ (fun g s => select_result g.2 = some (some s)) groups final := by
  induction groups generalizing final with
  | nil =>
    rw [collect_selected] at h
    rw [← Option.some_inj.mp h]
    exact List.Forall₂.nil
  | cons g gs ih =>
    rcases hsel : select_result g.2 with _ | o
    · rw [collect_selected, hsel] at h
      exact absurd h (by simp)
    · rcases select_result_nonempty (hne g (List.mem_cons_self g gs)) hsel with ⟨s, rfl⟩
      rw [collect_selected, hsel] at h
      rcases hrest : collect_selected gs with _ | rest
      · rw [hrest] at h
        exact absurd h (by simp)
      · rw [hrest] at h
        have hfin : final = s :: rest := (Option.some_inj.mp h).symm
        rw [hfin]
        exact List.Forall₂.cons hsel (ih (fun g' hg' => hne g' (List.mem_cons_of_mem g hg')) hrest)

theorem forall₂_map_self {α : Type} {R : (VKey × List TestResult) → α → Prop}
    {l : List α} {f : α → VKey × List TestResult}
    (h : ∀ s ∈ l, R (f s) s) : List.Forall₂ R (l.map f) l := by
  induction l with
  | nil => exact List.Forall₂.nil
  | cons x l ih =>
    rw [List.map_cons]
    exact List.Forall₂.cons (h x (List.mem_cons_self x l))
      (ih (fun s hs => h s (List.mem_cons_of_mem x hs)))

theorem final_keys_of_forall₂ {keys : List VKey} {cands : List TestResult}
    {final : List TestResult}
    (h : List.Forall₂ (fun g s => select_result g.2 = some (some s))
          (keys.map (fun k => (k, grpWith k cands))) final) :
    final.map get_version_key = keys := by
  induction keys generalizing final with
  | nil =>
    cases h
    rfl
  | cons k ks ih =>
    rw [List.map_cons] at h
    rcases h with _ | ⟨hsel, htail⟩
    rename_i s rest
    have hspec := select_result_spec hsel
    have hkey : get_version_key s = k := (mem_grpWith_iff.mp hspec.1).2
    rw [List.map_cons, hkey, ih htail]

theorem foldl_if_filter {β γ : Type} (p : γ → Bool) (g : β → γ → β) (a : β) (l : List γ) :
    l.foldl (fun acc r => if p r then g acc r else acc) a = (l.filter p).foldl g a := by
  induction l generalizing a with
  | nil => rfl
  | cons x l ih =>
    by_cases hx : p x
    · simp [List.filter_cons, hx, ih]
    · simp [List.filter_cons, hx, ih]

theorem merge_release_tests_eq_some_iff {N E out : List TestResult} :
    merge_release_tests N E = some out ↔
      ∃ final,
        collect_selected ((firstOccs ((releaseCands N E).map get_version_key)).map
          (fun k => (k, grpWith k (releaseCands N E)))) = some final ∧
        final.all tsOk = true ∧ out = final.insertionSort tsDesc := by
  unfold merge_release_tests
  rw [foldl_if_filter releaseKeep gappend]
  rw [show (N.filter releaseKeep).foldl gappend (E.foldl gappend [])
      = (releaseCands N E).foldl gappend [] from (List.foldl_append gappend [] E _).symm]
  rw [foldl_gappend_struct]
  rcases hcol : collect_selected ((firstOccs ((releaseCands N E).map get_version_key)).map
      (fun k => (k, grpWith k (releaseCands N E)))) with _ | final
  · constructor
    · intro hh
      have hh' : (none : Option (List TestResult)) = some out := hh
      exact absurd hh' (by simp)
    · rintro ⟨final', hf', _, _⟩
      exact absurd hf' (by simp)
  · constructor
    · intro hh
      have hh' : (if final.all tsOk = true then some (final.insertionSort tsDesc) else none)
          = some out := hh
      by_cases hts : final.all tsOk
      · rw [if_pos hts] at hh'
        exact ⟨final, rfl, hts, (Option.some_inj.mp hh').symm⟩
      · rw [if_neg hts] at hh'
        exact absurd hh' (by simp)
    · rintro ⟨final', hf', hts', hout⟩
      have hfin : final = final' := Option.some_inj.mp hf'
      subst hfin
      show (if final.all tsOk = true then some (final.insertionSort tsDesc) else none)
          = some out
      rw [if_pos hts', hout]

theorem grpWith_self_singleton {s : TestResult} {l : List TestResult}
    (hnd : (l.map get_version_key).Nodup) (hs : s ∈ l) :
    grpWith (get_version_key s) l = [s] := by
  induction l with
  | nil => simp at hs
  | cons a rest ih =>
    rw [List.map_cons, List.nodup_cons] at hnd
    rcases List.mem_cons.mp hs with hh | hh
    · subst hh
      rw [show grpWith (get_version_key s) (s :: rest)
          = s :: grpWith (get_version_key s) rest from by simp [grpWith, List.filter_cons]]
      rw [grpWith_eq_nil hnd.1]
    · have hne : ¬ (get_version_key a = get_version_key s) := by
        intro heq
        exact hnd.1 (heq ▸ List.mem_map_of_mem get_version_key hh)
      rw [show grpWith (get_version_key s) (a :: rest)
          = grpWith (get_version_key s) rest from by
        simp only [grpWith, List.filter_cons]
        rw [show (decide (get_version_key a = get_version_key s)) = false from
          decide_eq_false hne]
        simp]
      exact ih hnd.2 hh

theorem forall₂_sel_mem {keys : List VKey} {cands final : List TestResult}
    (h : List.Forall₂ (fun g s => select_result g.2 = some (some s))
          (keys.map (fun k => (k, grpWith k cands))) final) :
    ∀ s ∈ final, select_result (grpWith (get_version_key s) cands) = some (some s) := by
  induction keys generalizing final with
  | nil =>
    cases h
    intro s hs
    simp at hs
  | cons k ks ih =>
    rw [List.map_cons] at h
    rcases h with _ | ⟨hsel, htail⟩
    rename_i s0 rest
    intro s hsmem
    rcases List.mem_cons.mp hsmem with hh | hh
    · subst hh
      have hkey : get_version_key s = k := (mem_grpWith_iff.mp (select_result_spec hsel).1).2
      rw [hkey]
      exact hsel
    · exact ih htail s hh

/-- Re-merging the same batch into a freshly merged release list returns it
unchanged. -/
theorem merge_release_idem {N E out : List TestResult}
    (h : merge_release_tests N E = some out) :
    merge_release_tests N out = some out := by
  rcases merge_release_tests_eq_some_iff.mp h with ⟨final, hcol, hts, hout⟩
  have hne : ∀ g ∈ (firstOccs ((releaseCands N E).map get_version_key)).map
      (fun k => (k, grpWith k (releaseCands N E))), ¬ g.2 = [] := by
    intro g hg
    rcases List.mem_map.mp hg with ⟨k, hk, rfl⟩
    rcases List.mem_map.mp (mem_firstOccs_iff.mp hk) with ⟨x, hx, rfl⟩
    intro hnil
    have hnil' : grpWith (get_version_key x) (releaseCands N E) = [] := hnil
    have : x ∈ grpWith (get_version_key x) (releaseCands N E) :=
      mem_grpWith_iff.mpr ⟨hx, rfl⟩
    rw [hnil'] at this
    exact List.not_mem_nil x this
  have hfa := collect_selected_forall₂_of_eq hne hcol
  have hkeysfinal : final.map get_version_key
      = firstOccs ((releaseCands N E).map get_version_key) := final_keys_of_forall₂ hfa
  have hperm : out.Perm final := hout ▸ List.perm_insertionSort tsDesc final
  have hsortout : out.Sorted tsDesc := hout ▸ List.sorted_insertionSort tsDesc final
  have hndout : (out.map get_version_key).Nodup := by
    have hpmap : (out.map get_version_key).Perm (final.map get_version_key) :=
      hperm.map get_version_key
    rw [hpmap.nodup_iff, hkeysfinal]
    exact nodup_firstOccs _
  have hselmem := @forall₂_sel_mem _ (releaseCands N E) _ (hkeysfinal ▸ hfa)
  -- the key list of the second merge
  have hkeys2 : firstOccs ((releaseCands N out).map get_version_key)
      = out.map get_version_key := by
    unfold releaseCands
    rw [List.map_append]
    rw [firstOccs_append_subset ?_, firstOccs_of_nodup hndout]
    intro a ha
    rcases List.mem_map.mp ha with ⟨x, hx, rfl⟩
    have hxc : x ∈ releaseCands N E := List.mem_append_right E hx
    have hk1 : get_version_key x ∈ firstOccs ((releaseCands N E).map get_version_key) :=
      mem_firstOccs_iff.mpr (List.mem_map_of_mem get_version_key hxc)
    rw [← hkeysfinal] at hk1
    rcases List.mem_map.mp hk1 with ⟨s, hsf, hsk⟩
    rw [← hsk]
    exact List.mem_map_of_mem get_version_key (hperm.mem_iff.mpr hsf)
  -- pointwise selection facts for the second merge
  have hsel2 : ∀ s ∈ out,
      select_result (grpWith (get_version_key s) (releaseCands N out)) = some (some s) := by
    intro s hsout
    have hsfin : s ∈ final := hperm.mem_iff.mp hsout
    have hsel1 := hselmem s hsfin
    have hspec := select_result_spec hsel1
    have hgrp2 : grpWith (get_version_key s) (releaseCands N out)
        = s :: grpWith (get_version_key s) (N.filter releaseKeep) := by
      unfold releaseCands
      rw [grpWith_append, grpWith_self_singleton hndout hsout]
      rfl
    have hsub : ∀ x ∈ grpWith (get_version_key s) (N.filter releaseKeep),
        x ∈ grpWith (get_version_key s) (releaseCands N E) := by
      intro x hx
      rcases mem_grpWith_iff.mp hx with ⟨hxn, hxk⟩
      exact mem_grpWith_iff.mpr ⟨List.mem_append_right E hxn, hxk⟩
    rw [hgrp2]
    rcases hspec.2 with ⟨hsucc, htsok, hmax⟩ | ⟨hnsucc, hnos, hmax⟩
    · exact select_result_cons_success hsucc htsok
        (fun x hx hxs => hmax x (hsub x hx) hxs)
    · exact select_result_cons_nonsuccess hnsucc
        (fun x hx => hnos x (hsub x hx))
        (hmax s hspec.1).2
        (fun x hx => hmax x (hsub x hx))
  have hcol2 : collect_selected ((firstOccs ((releaseCands N out).map get_version_key)).map
      (fun k => (k, grpWith k (releaseCands N out)))) = some out := by
    rw [hkeys2, List.map_map]
    exact collect_selected_eq_of_forall₂ (forall₂_map_self hsel2)
  rw [merge_release_tests_eq_some_iff]
  refine ⟨out, hcol2, ?_, (hsortout.insertionSort_eq).symm⟩
  rw [List.all_eq_true]
  intro x hx
  exact List.all_eq_true.mp hts x (hperm.mem_iff.mp hx)

/-! ## Lemmas: merge_job_history_links -/

theorem mjl_sorted (n e : List String) :
    (merge_job_history_links n e).Sorted (fun a b : String => a ≤ b) :=
  List.sorted_insertionSort _ _

theorem mjl_nodup (n e : List String) : (merge_job_history_links n e).Nodup :=
  ((List.perm_insertionSort _ _).nodup_iff).mpr ((n ++ e).nodup_dedup)

theorem mjl_mem {x : String} {n e : List String} :
    x ∈ merge_job_history_links n e ↔ x ∈ n ∨ x ∈ e := by
  unfold merge_job_history_links
  rw [List.mem_insertionSort, List.mem_dedup, List.mem_append]

theorem mjl_idem (n e : List String) :
    merge_job_history_links n (merge_job_history_links n e) = merge_job_history_links n e := by
  apply List.eq_of_perm_of_sorted ?_ (mjl_sorted _ _) (mjl_sorted _ _)
  apply (List.perm_ext_iff_of_nodup (mjl_nodup _ _) (mjl_nodup _ _)).mpr
  intro a
  rw [mjl_mem, mjl_mem]
  tauto

/-! ## Lemmas: per-bucket and whole-history idempotence -/

theorem merge_ocp_idem {nb : NewBucket} {ex mb : RawBucket} {L : Option Nat}
    (h : merge_ocp_version_results nb ex L = some mb) :
    merge_ocp_version_results nb mb L = some mb := by
  unfold merge_ocp_version_results at h
  rcases hbt : merge_bundle_tests nb.bundle_tests (ex.bundle_tests.getD []) L with _ | bt
  · rw [hbt] at h
    exact absurd h (by simp)
  rw [hbt] at h
  rcases hrt : merge_release_tests nb.release_tests (ex.release_tests.getD []) with _ | rt
  · rw [hrt] at h
    exact absurd h (by simp)
  rw [hrt] at h
  have hmb : mb = { notes := some (ex.notes.getD [])
                  , bundle_tests := some bt
                  , release_tests := some rt
                  , job_history_links := some (merge_job_history_links nb.job_history_links
                      (ex.job_history_links.getD [])) } := (Option.some_inj.mp h).symm
  subst hmb
  unfold merge_ocp_version_results
  rw [show (({ notes := some (ex.notes.getD [])
             , bundle_tests := some bt
             , release_tests := some rt
             , job_history_links := some (merge_job_history_links nb.job_history_links
                 (ex.job_history_links.getD [])) } : RawBucket).bundle_tests.getD []) = bt
      from rfl]
  rw [merge_bundle_idem hbt]
  rw [show (({ notes := some (ex.notes.getD [])
             , bundle_tests := some bt
             , release_tests := some rt
             , job_history_links := some (merge_job_history_links nb.job_history_links
                 (ex.job_history_links.getD [])) } : RawBucket).release_tests.getD []) = rt
      from rfl]
  rw [merge_release_idem hrt]
  simp [mjl_idem]

theorem merge_buckets_loop_lookup {L : Option Nat} {X : List (String × NewBucket)}
    {H Y : List (String × RawBucket)}
    (hnd : (X.map Prod.fst).Nodup)
    (h : merge_buckets_loop L X H = some Y) :
    (∀ k, k ∉ X.map Prod.fst → alookup k Y = alookup k H) ∧
    (∀ k nb, (k, nb) ∈ X → ∃ mb,
       merge_ocp_version_results nb ((alookup k H).getD emptyRawBucket) L = some mb ∧
       alookup k Y = some mb) := by
  induction X generalizing H with
  | nil =>
    rw [merge_buckets_loop] at h
    have hHY : H = Y := Option.some_inj.mp h
    subst hHY
    exact ⟨fun k _ => rfl, by simp⟩
  | cons kv X ih =>
    rcases kv with ⟨k0, nb0⟩
    rw [List.map_cons, List.nodup_cons] at hnd
    rw [merge_buckets_loop] at h
    rcases hm0 : merge_ocp_version_results nb0 ((alookup k0 H).getD emptyRawBucket) L
        with _ | m0
    · rw [hm0] at h
      exact absurd h (by simp)
    rw [hm0] at h
    rcases ih hnd.2 h with ⟨hA, hB⟩
    constructor
    · intro k hk
      have hk0 : ¬ (k = k0) := fun hh => hk (by simp [hh])
      have hkX : k ∉ X.map Prod.fst := fun hh => hk (by simp [hh])
      rw [hA k hkX, alookup_upsert_ne hk0]
    · intro k nb hmem
      rcases List.mem_cons.mp hmem with hh | hh
      · injection hh with hk hnb
        subst hk
        subst hnb
        refine ⟨m0, hm0, ?_⟩
        rw [hA k hnd.1, alookup_upsert_self]
      · have hkne : ¬ (k = k0) := by
          intro hkk
          subst hkk
          exact hnd.1 (List.mem_map.mpr ⟨(k, nb), hh, rfl⟩)
        rcases hB k nb hh with ⟨mb, hmb, hlk⟩
        rw [alookup_upsert_ne hkne] at hmb
        exact ⟨mb, hmb, hlk⟩

theorem merge_buckets_loop_fixed {L : Option Nat} {X : List (String × NewBucket)}
    {Acc : List (String × RawBucket)}
    (hfix : ∀ p ∈ X, ∃ mb, alookup p.1 Acc = some mb ∧
        merge_ocp_version_results p.2 mb L = some mb) :
    merge_buckets_loop L X Acc = some Acc := by
  induction X with
  | nil => rfl
  | cons kv X ih =>
    rcases hfix kv (List.mem_cons_self kv X) with ⟨mb, hlk, hm⟩
    rw [merge_buckets_loop, hlk]
    rw [show (some mb).getD emptyRawBucket = mb from rfl, hm]
    show merge_buckets_loop L X (upsert kv.1 mb Acc) = some Acc
    rw [upsert_of_alookup_eq hlk]
    exact ih (fun p hp => hfix p (List.mem_cons_of_mem kv hp))

theorem merge_and_save_results_idem_aux {X : List (String × NewBucket)}
    {H Y : List (String × RawBucket)} {L : Option Nat}
    (hnd : (X.map Prod.fst).Nodup)
    (h : merge_and_save_results X H L = some Y) :
    merge_and_save_results X Y L = some Y := by
  unfold merge_and_save_results at h ⊢
  rcases merge_buckets_loop_lookup hnd h with ⟨_, hB⟩
  apply merge_buckets_loop_fixed
  intro p hp
  rcases hB p.1 p.2 hp with ⟨mb, hmb, hlk⟩
  exact ⟨mb, hlk, merge_ocp_idem hmb⟩

/-! ## Lemmas: membership in the truncated descending sort -/

theorem mem_topcut_iff {l : List TestResult} {L : Option Nat}
    (hts : l.Pairwise (fun a b => tsv a ≠ tsv b)) (x : TestResult) :
    x ∈ (match L with
         | some n => (l.insertionSort tsDesc).take n
         | none => l.insertionSort tsDesc) ↔
      x ∈ l ∧ withinLimit L (cntAbove l x) := by
  have hperm := List.perm_insertionSort tsDesc l
  have hsorted := List.sorted_insertionSort tsDesc l
  rcases L with _ | n
  · show x ∈ l.insertionSort tsDesc ↔ _
    rw [hperm.mem_iff]
    exact ⟨fun hx => ⟨hx, fun n hn => by simp at hn⟩, fun h => h.1⟩
  · show x ∈ (l.insertionSort tsDesc).take n ↔ _
    have hsplit := List.take_append_drop n (l.insertionSort tsDesc)
    have hcnt : cntAbove l x
        = ((l.insertionSort tsDesc).take n).countP (fun y => decide (tsv x < tsv y))
          + ((l.insertionSort tsDesc).drop n).countP (fun y => decide (tsv x < tsv y)) := by
      unfold cntAbove
      rw [← hperm.countP_eq (fun y => decide (tsv x < tsv y))]
      conv_lhs => rw [← hsplit]
      exact List.countP_append _ _ _
    have hpairTD : ((l.insertionSort tsDesc).take n
        ++ (l.insertionSort tsDesc).drop n).Pairwise (fun a b => tsv a ≠ tsv b) := by
      rw [hsplit]
      exact (hperm.pairwise_iff (fun h => Ne.symm h)).mpr hts
    have hsortTD : ((l.insertionSort tsDesc).take n
        ++ (l.insertionSort tsDesc).drop n).Pairwise tsDesc := by
      rw [hsplit]
      exact hsorted
    rcases List.pairwise_append.mp hpairTD with ⟨_, _, hcrossne⟩
    rcases List.pairwise_append.mp hsortTD with ⟨_, _, hcrossle⟩
    constructor
    · intro hx
      refine ⟨hperm.mem_iff.mp ((List.take_sublist n _).subset hx), ?_⟩
      intro m hm
      injection hm with hm
      subst hm
      have hD0 : ((l.insertionSort tsDesc).drop n).countP
          (fun y => decide (tsv x < tsv y)) = 0 := by
        rw [List.countP_eq_zero]
        intro d hd
        simp only [decide_eq_true_eq, not_lt]
        exact hcrossle x hx d hd
      have hTlt : ((l.insertionSort tsDesc).take n).countP
          (fun y => decide (tsv x < tsv y)) < n := by
        have h1 : ((l.insertionSort tsDesc).take n).countP
            (fun y => decide (tsv x < tsv y))
            ≤ ((l.insertionSort tsDesc).take n).length := List.countP_le_length _
        have h2 : ((l.insertionSort tsDesc).take n).countP
            (fun y => decide (tsv x < tsv y))
            ≠ ((l.insertionSort tsDesc).take n).length := by
          intro heq
          have hx' := List.countP_eq_length.mp heq x hx
          simp at hx'
        have h3 : ((l.insertionSort tsDesc).take n).length ≤ n := by
          rw [List.length_take]
          exact min_le_left n _
        omega
      rw [hcnt, hD0]
      omega
    · rintro ⟨hxl, hw⟩
      have hn := hw n rfl
      have hxS : x ∈ (l.insertionSort tsDesc).take n
          ++ (l.insertionSort tsDesc).drop n := by
        rw [hsplit]
        exact hperm.mem_iff.mpr hxl
      rcases List.mem_append.mp hxS with h | h
      · exact h
      · exfalso
        have hlenT : ((l.insertionSort tsDesc).take n).length = n := by
          rw [List.length_take]
          refine min_eq_left ?_
          by_contra hc
          push_neg at hc
          rw [List.drop_eq_nil_iff.mpr (le_of_lt hc)] at h
          simp at h
        have hallT : ∀ t ∈ (l.insertionSort tsDesc).take n,
            (fun y => decide (tsv x < tsv y)) t = true := by
          intro t ht
          simp only [decide_eq_true_eq]
          exact lt_of_le_of_ne (hcrossle t ht x h)
            (fun he => hcrossne t ht x h he.symm)
        have hcT : ((l.insertionSort tsDesc).take n).countP
            (fun y => decide (tsv x < tsv y)) = n := by
          rw [List.countP_eq_length.mpr hallT, hlenT]
        rw [hcnt, hcT] at hn
        omega

theorem topcut_drop {l : List TestResult} {n : Nat} {d : TestResult}
    (hts : l.Pairwise (fun a b => tsv a ≠ tsv b))
    (hd : d ∈ l) (hnot : d ∉ (l.insertionSort tsDesc).take n) :
    ((l.insertionSort tsDesc).take n).length = n ∧
    ∀ t ∈ (l.insertionSort tsDesc).take n, tsv d < tsv t := by
  have hperm := List.perm_insertionSort tsDesc l
  have hsorted := List.sorted_insertionSort tsDesc l
  have hsplit := List.take_append_drop n (l.insertionSort tsDesc)
  have hpairTD : ((l.insertionSort tsDesc).take n
      ++ (l.insertionSort tsDesc).drop n).Pairwise (fun a b => tsv a ≠ tsv b) := by
    rw [hsplit]
    exact (hperm.pairwise_iff (fun h => Ne.symm h)).mpr hts
  have hsortTD : ((l.insertionSort tsDesc).take n
      ++ (l.insertionSort tsDesc).drop n).Pairwise tsDesc := by
    rw [hsplit]
    exact hsorted
  rcases List.pairwise_append.mp hpairTD with ⟨_, _, hcrossne⟩
  rcases List.pairwise_append.mp hsortTD with ⟨_, _, hcrossle⟩
  have hdS : d ∈ (l.insertionSort tsDesc).take n
      ++ (l.insertionSort tsDesc).drop n := by
    rw [hsplit]
    exact hperm.mem_iff.mpr hd
  have hdD : d ∈ (l.insertionSort tsDesc).drop n := by
    rcases List.mem_append.mp hdS with h | h
    · exact absurd h hnot
    · exact h
  constructor
  · rw [List.length_take]
    refine min_eq_left ?_
    by_contra hc
    push_neg at hc
    rw [List.drop_eq_nil_iff.mpr (le_of_lt hc)] at hdD
    simp at hdD
  · intro t ht
    exact lt_of_le_of_ne (hcrossle t ht d hdD)
      (fun he => hcrossne t ht d hdD he.symm)

theorem tsvNe_symm : Symmetric (fun a b : TestResult => tsv a ≠ tsv b) :=
  fun _ _ h => Ne.symm h

theorem bkDNe_symm : Symmetric (fun a b : TestResult => bkD a ≠ bkD b) :=
  fun _ _ h => Ne.symm h

/-! ## Lemmas: the bundle merge on key-distinct candidate pools -/

theorem bundleVals_of_distinct {N E : List TestResult}
    (h : (E ++ N).Pairwise (fun a b => bkD a ≠ bkD b)) :
    bundleVals N E = E ++ N := by
  unfold bundleVals
  rw [foldl_bupsert_distinct h, List.map_map]
  have hmap : ∀ l : List TestResult,
      l.map (Prod.snd ∘ fun r => (bkD r, r)) = l := by
    intro l
    induction l with
    | nil => rfl
    | cons a t ih =>
      rw [List.map_cons, ih]
      rfl
  exact hmap (E ++ N)

theorem merge_bundle_mem_iff {N E out : List TestResult} {L : Option Nat}
    (hk : (E ++ N).Pairwise (fun a b => bkD a ≠ bkD b))
    (hts : (E ++ N).Pairwise (fun a b => tsv a ≠ tsv b))
    (h : merge_bundle_tests N E L = some out) :
    ∀ x, x ∈ out ↔ x ∈ E ++ N ∧ withinLimit L (cntAbove (E ++ N) x) := by
  rcases merge_bundle_tests_eq_some_iff.mp h with ⟨_, _, hout⟩
  rw [bundleVals_of_distinct hk] at hout
  intro x
  rw [hout]
  exact mem_topcut_iff hts x

theorem merge_bundle_drop {N E out : List TestResult} {n : Nat} {d : TestResult}
    (hk : (E ++ N).Pairwise (fun a b => bkD a ≠ bkD b))
    (hts : (E ++ N).Pairwise (fun a b => tsv a ≠ tsv b))
    (h : merge_bundle_tests N E (some n) = some out)
    (hd : d ∈ E ++ N) (hnot : d ∉ out) :
    out.length = n ∧ ∀ t ∈ out, tsv d < tsv t := by
  rcases merge_bundle_tests_eq_some_iff.mp h with ⟨_, _, hout⟩
  rw [bundleVals_of_distinct hk] at hout
  have hout' : out = ((E ++ N).insertionSort tsDesc).take n := hout
  subst hout'
  exact topcut_drop hts hd hnot

theorem merge_bundle_out_sub {N E out : List TestResult} {L : Option Nat}
    (hk : (E ++ N).Pairwise (fun a b => bkD a ≠ bkD b))
    (h : merge_bundle_tests N E L = some out)
    (R : TestResult → TestResult → Prop)
    (hp : (E ++ N).Pairwise R) (hR : Symmetric R) : out.Pairwise R := by
  rcases merge_bundle_tests_eq_some_iff.mp h with ⟨_, _, hout⟩
  rw [bundleVals_of_distinct hk] at hout
  have hsortp : ((E ++ N).insertionSort tsDesc).Pairwise R :=
    ((List.perm_insertionSort tsDesc (E ++ N)).pairwise_iff
      (fun h' => hR h')).mpr hp
  rcases L with _ | n
  · exact hout ▸ hsortp
  · exact hout ▸ List.Pairwise.sublist (List.take_sublist n _) hsortp

theorem two_step_bundle_mem {Hb Ab Bb T1 out : List TestResult} {L : Option Nat}
    (hkeys : (Hb ++ Ab ++ Bb).Pairwise (fun a b => bkD a ≠ bkD b))
    (hts : (Hb ++ Ab ++ Bb).Pairwise (fun a b => tsv a ≠ tsv b))
    (h1 : merge_bundle_tests Ab Hb L = some T1)
    (h2 : merge_bundle_tests Bb T1 L = some out) :
    ∀ x, x ∈ out ↔ x ∈ Hb ++ Ab ++ Bb ∧
      withinLimit L (cntAbove (Hb ++ Ab ++ Bb) x) := by
  rcases List.pairwise_append.mp hkeys with ⟨hkHA, hkB, hkX⟩
  rcases List.pairwise_append.mp hts with ⟨htHA, htB, htX⟩
  have hm1 := merge_bundle_mem_iff hkHA htHA h1
  have hT1sub : ∀ y ∈ T1, y ∈ Hb ++ Ab := fun y hy => ((hm1 y).mp hy).1
  have hT1k : T1.Pairwise (fun a b => bkD a ≠ bkD b) :=
    merge_bundle_out_sub hkHA h1 _ hkHA bkDNe_symm
  have hT1t : T1.Pairwise (fun a b => tsv a ≠ tsv b) :=
    merge_bundle_out_sub hkHA h1 _ htHA tsvNe_symm
  have hk2 : (T1 ++ Bb).Pairwise (fun a b => bkD a ≠ bkD b) :=
    List.pairwise_append.mpr ⟨hT1k, hkB, fun t ht b hb => hkX t (hT1sub t ht) b hb⟩
  have ht2 : (T1 ++ Bb).Pairwise (fun a b => tsv a ≠ tsv b) :=
    List.pairwise_append.mpr ⟨hT1t, htB, fun t ht b hb => htX t (hT1sub t ht) b hb⟩
  have hm2 := merge_bundle_mem_iff hk2 ht2 h2
  have hsplit2 : ∀ z : TestResult, cntAbove (T1 ++ Bb) z
      = cntAbove T1 z + cntAbove Bb z := by
    intro z
    unfold cntAbove
    exact List.countP_append _ _ _
  have hsplitP : ∀ z : TestResult, cntAbove (Hb ++ Ab ++ Bb) z
      = cntAbove (Hb ++ Ab) z + cntAbove Bb z := by
    intro z
    unfold cntAbove
    exact List.countP_append _ _ _
  have hcle : ∀ z : TestResult, cntAbove T1 z ≤ cntAbove (Hb ++ Ab) z := by
    intro z
    rcases merge_bundle_tests_eq_some_iff.mp h1 with ⟨_, _, hT1out⟩
    rw [bundleVals_of_distinct hkHA] at hT1out
    have hsub : List.Sublist T1 ((Hb ++ Ab).insertionSort tsDesc) := by
      rcases L with _ | n
      · exact hT1out ▸ List.Sublist.refl _
      · exact hT1out ▸ List.take_sublist n _
    unfold cntAbove
    calc T1.countP (fun y => decide (tsv z < tsv y))
        ≤ ((Hb ++ Ab).insertionSort tsDesc).countP (fun y => decide (tsv z < tsv y)) :=
          hsub.countP_le _
      _ = (Hb ++ Ab).countP (fun y => decide (tsv z < tsv y)) :=
          (List.perm_insertionSort tsDesc (Hb ++ Ab)).countP_eq _
  intro x
  rw [hm2 x]
  constructor
  · rintro ⟨hmem, hwin⟩
    constructor
    · rcases List.mem_append.mp hmem with h | h
      · exact List.mem_append.mpr (Or.inl (hT1sub x h))
      · exact List.mem_append.mpr (Or.inr h)
    · intro n hLn
      subst hLn
      by_cases hdrop : ∃ d ∈ Hb ++ Ab, tsv x < tsv d ∧ d ∉ T1
      · exfalso
        rcases hdrop with ⟨d, hdHA, hdgt, hdnot⟩
        rcases merge_bundle_drop hkHA htHA h1 hdHA hdnot with ⟨hlen, hall⟩
        have hallp : ∀ t ∈ T1, (fun y => decide (tsv x < tsv y)) t = true := by
          intro t ht
          simp only [decide_eq_true_eq]
          exact lt_trans hdgt (hall t ht)
        have hcT1 : cntAbove T1 x = n := by
          unfold cntAbove
          rw [List.countP_eq_length.mpr hallp, hlen]
        have hw := hwin n rfl
        rw [hsplit2 x, hcT1] at hw
        omega
      · push_neg at hdrop
        have hfle : cntAbove (Hb ++ Ab) x ≤ cntAbove T1 x := by
          unfold cntAbove
          rw [List.countP_eq_length_filter, List.countP_eq_length_filter]
          apply List.Subperm.length_le
          apply List.Nodup.subperm
          · exact List.Nodup.filter _
              (htHA.imp (fun h' heq => h' (congrArg tsv heq)))
          · intro y hy
            rcases List.mem_filter.mp hy with ⟨hyHA, hyp⟩
            refine List.mem_filter.mpr ⟨?_, hyp⟩
            exact hdrop y hyHA (by simpa using hyp)
        have hw := hwin n rfl
        rw [hsplit2 x] at hw
        rw [hsplitP x]
        omega
  · rintro ⟨hmem, hwin⟩
    have hwinHA : withinLimit L (cntAbove (Hb ++ Ab) x) := by
      intro n hLn
      have hw := hwin n hLn
      rw [hsplitP x] at hw
      omega
    constructor
    · rcases List.mem_append.mp hmem with h | h
      · exact List.mem_append.mpr (Or.inl ((hm1 x).mpr ⟨h, hwinHA⟩))
      · exact List.mem_append.mpr (Or.inr h)
    · intro n hLn
      have hw := hwin n hLn
      rw [hsplitP x] at hw
      rw [hsplit2 x]
      have hc := hcle x
      omega

theorem two_step_bundle_comm {Hb Ab Bb T1 out T1' out' : List TestResult}
    {L : Option Nat}
    (hkeys : (Hb ++ Ab ++ Bb).Pairwise (fun a b => bkD a ≠ bkD b))
    (hts : (Hb ++ Ab ++ Bb).Pairwise (fun a b => tsv a ≠ tsv b))
    (h1 : merge_bundle_tests Ab Hb L = some T1)
    (h2 : merge_bundle_tests Bb T1 L = some out)
    (h1' : merge_bundle_tests Bb Hb L = some T1')
    (h2' : merge_bundle_tests Ab T1' L = some out') :
    ∀ x, x ∈ out ↔ x ∈ out' := by
  have hperm : (Hb ++ Ab ++ Bb).Perm (Hb ++ Bb ++ Ab) := by
    rw [List.append_assoc, List.append_assoc]
    exact List.Perm.append_left _ List.perm_append_comm
  have hkeys' := (hperm.pairwise_iff (fun h' => Ne.symm h')).mp hkeys
  have hts' := (hperm.pairwise_iff (fun h' => Ne.symm h')).mp hts
  have hAB := two_step_bundle_mem hkeys hts h1 h2
  have hBA := two_step_bundle_mem hkeys' hts' h1' h2'
  intro x
  rw [hAB x, hBA x]
  have hcnt : cntAbove (Hb ++ Ab ++ Bb) x = cntAbove (Hb ++ Bb ++ Ab) x := by
    unfold cntAbove
    exact hperm.countP_eq _
  constructor
  · rintro ⟨hm, hw⟩
    exact ⟨hperm.mem_iff.mp hm, fun n hLn => by rw [← hcnt]; exact hw n hLn⟩
  · rintro ⟨hm, hw⟩
    exact ⟨hperm.mem_iff.mpr hm, fun n hLn => by rw [hcnt]; exact hw n hLn⟩

/-! ## Lemmas: the release selection as an order-free predicate -/

theorem select_result_isBest {l : List TestResult} {s : TestResult}
    (h : select_result l = some (some s)) : IsBest l s := by
  rcases select_result_spec h with ⟨hmem, hcase⟩
  refine ⟨hmem, ?_⟩
  rcases hcase with ⟨hs, _, hmax⟩ | ⟨hs, hnos, hmax⟩
  · exact Or.inl ⟨hs, fun x hx hxs => (hmax x hx hxs).1⟩
  · exact Or.inr ⟨hs, hnos, fun x hx => (hmax x hx).1⟩

theorem isBest_congr {l l' : List TestResult} {s : TestResult}
    (hm : ∀ y, y ∈ l ↔ y ∈ l') (h : IsBest l s) : IsBest l' s := by
  rcases h with ⟨hmem, hcase⟩
  refine ⟨(hm s).mp hmem, ?_⟩
  rcases hcase with ⟨hs, hmax⟩ | ⟨hs, hnos, hmax⟩
  · exact Or.inl ⟨hs, fun x hx hxs => hmax x ((hm x).mpr hx) hxs⟩
  · exact Or.inr ⟨hs, fun x hx => hnos x ((hm x).mpr hx),
      fun x hx => hmax x ((hm x).mpr hx)⟩

theorem isBest_compose {C D : List TestResult} {s1 s : TestResult}
    (h1 : IsBest C s1) (h : IsBest (s1 :: D) s) : IsBest (C ++ D) s := by
  rcases h1 with ⟨hm1, hc1⟩
  rcases h with ⟨hm, hc⟩
  have hmem : s ∈ C ++ D := by
    rcases List.mem_cons.mp hm with hh | hh
    · exact List.mem_append.mpr (Or.inl (hh ▸ hm1))
    · exact List.mem_append.mpr (Or.inr hh)
  refine ⟨hmem, ?_⟩
  rcases hc with ⟨hs, hmax⟩ | ⟨hs, hnos, hmax⟩
  · refine Or.inl ⟨hs, ?_⟩
    intro x hx hxs
    rcases List.mem_append.mp hx with hh | hh
    · rcases hc1 with ⟨hs1, hmax1⟩ | ⟨hs1, hnos1, hmax1⟩
      · exact le_trans (hmax1 x hh hxs) (hmax s1 (List.mem_cons_self s1 D) hs1)
      · exact absurd hxs (hnos1 x hh)
    · exact hmax x (List.mem_cons_of_mem s1 hh) hxs
  · have hs1ns : ¬ s1.test_status = STATUS_SUCCESS :=
      hnos s1 (List.mem_cons_self s1 D)
    rcases hc1 with ⟨hs1, hmax1⟩ | ⟨hs1, hnos1, hmax1⟩
    · exact absurd hs1 hs1ns
    refine Or.inr ⟨hs, ?_, ?_⟩
    · intro x hx
      rcases List.mem_append.mp hx with hh | hh
      · exact hnos1 x hh
      · exact hnos x (List.mem_cons_of_mem s1 hh)
    · intro x hx
      rcases List.mem_append.mp hx with hh | hh
      · exact le_trans (hmax1 x hh) (hmax s1 (List.mem_cons_self s1 D))
      · exact hmax x (List.mem_cons_of_mem s1 hh)

theorem isBest_unique {l : List TestResult} {s s' : TestResult}
    (hts : l.Pairwise (fun a b => tsv a ≠ tsv b))
    (h : IsBest l s) (h' : IsBest l s') : s = s' := by
  by_contra hne
  have htne : tsv s ≠ tsv s' :=
    hts.forall tsvNe_symm h.1 h'.1 hne
  rcases h.2 with ⟨hs, hmax⟩ | ⟨hs, hnos, hmax⟩
  · rcases h'.2 with ⟨hs', hmax'⟩ | ⟨hs', hnos', hmax'⟩
    · exact htne (le_antisymm (hmax' s h.1 hs) (hmax s' h'.1 hs'))
    · exact hnos' s h.1 hs
  · rcases h'.2 with ⟨hs', hmax'⟩ | ⟨hs', hnos', hmax'⟩
    · exact hnos s' h'.1 hs'
    · exact htne (le_antisymm (hmax' s h.1) (hmax s' h'.1))

theorem merge_release_facts {N E out : List TestResult}
    (h : merge_release_tests N E = some out) :
    ∃ f : List TestResult, (∀ x, x ∈ out ↔ x ∈ f) ∧
      f.map get_version_key = firstOccs ((releaseCands N E).map get_version_key) ∧
      ∀ s ∈ f, select_result (grpWith (get_version_key s) (releaseCands N E))
        = some (some s) := by
  rcases merge_release_tests_eq_some_iff.mp h with ⟨f, hcol, _, hout⟩
  have hne : ∀ g : VKey × List TestResult,
      g ∈ (firstOccs ((releaseCands N E).map get_version_key)).map
        (fun k => (k, grpWith k (releaseCands N E))) → ¬ g.2 = [] := by
    intro g hg
    rcases List.mem_map.mp hg with ⟨k, hk, rfl⟩
    rcases List.mem_map.mp (mem_firstOccs_iff.mp hk) with ⟨y, hy, rfl⟩
    intro hnil
    have hnil' : grpWith (get_version_key y) (releaseCands N E) = [] := hnil
    have hmem : y ∈ grpWith (get_version_key y) (releaseCands N E) :=
      mem_grpWith_iff.mpr ⟨hy, rfl⟩
    rw [hnil'] at hmem
    simp at hmem
  have hfa := collect_selected_forall₂_of_eq hne hcol
  refine ⟨f, ?_, final_keys_of_forall₂ hfa, forall₂_sel_mem hfa⟩
  intro x
  rw [hout]
  exact (List.perm_insertionSort tsDesc f).mem_iff

theorem two_step_release_mem {Hr Ar Br out1 out : List TestResult}
    (hts : (releaseCands Ar Hr ++ Br.filter releaseKeep).Pairwise
        (fun a b => tsv a ≠ tsv b))
    (h1 : merge_release_tests Ar Hr = some out1)
    (h2 : merge_release_tests Br out1 = some out) :
    ∀ x, x ∈ out ↔ IsBest (grpWith (get_version_key x)
        (releaseCands Ar Hr ++ Br.filter releaseKeep)) x := by
  rcases merge_release_facts h1 with ⟨f1, hm1, hk1, hsel1⟩
  rcases merge_release_facts h2 with ⟨f2, hm2, hk2, hsel2⟩
  have hndf1 : (f1.map get_version_key).Nodup := by
    rw [hk1]
    exact nodup_firstOccs _
  have hfwd : ∀ z ∈ f2, IsBest (grpWith (get_version_key z)
      (releaseCands Ar Hr ++ Br.filter releaseKeep)) z := by
    intro z hz
    have hbz : IsBest (grpWith (get_version_key z) (releaseCands Br out1)) z :=
      select_result_isBest (hsel2 z hz)
    have hgsplit2 : grpWith (get_version_key z) (releaseCands Br out1)
        = grpWith (get_version_key z) out1
          ++ grpWith (get_version_key z) (Br.filter releaseKeep) :=
      grpWith_append _ out1 (Br.filter releaseKeep)
    have hgsplitP : grpWith (get_version_key z)
          (releaseCands Ar Hr ++ Br.filter releaseKeep)
        = grpWith (get_version_key z) (releaseCands Ar Hr)
          ++ grpWith (get_version_key z) (Br.filter releaseKeep) :=
      grpWith_append _ (releaseCands Ar Hr) (Br.filter releaseKeep)
    rw [hgsplit2] at hbz
    rw [hgsplitP]
    by_cases hkf1 : get_version_key z ∈ f1.map get_version_key
    · rcases List.mem_map.mp hkf1 with ⟨s1, hs1f, hs1k⟩
      have hg1 : grpWith (get_version_key z) f1 = [s1] := by
        rw [← hs1k]
        exact grpWith_self_singleton hndf1 hs1f
      have hmemo : ∀ y, y ∈ grpWith (get_version_key z) out1 ↔ y = s1 := by
        intro y
        constructor
        · intro hy
          rcases mem_grpWith_iff.mp hy with ⟨hy1, hy2⟩
          have hyf : y ∈ grpWith (get_version_key z) f1 :=
            mem_grpWith_iff.mpr ⟨(hm1 y).mp hy1, hy2⟩
          rw [hg1] at hyf
          simpa using hyf
        · intro hy
          subst hy
          have hs1g : y ∈ grpWith (get_version_key z) f1 := by
            rw [hg1]
            simp
          rcases mem_grpWith_iff.mp hs1g with ⟨hy1, hy2⟩
          exact mem_grpWith_iff.mpr ⟨(hm1 y).mpr hy1, hy2⟩
      have hcongr : ∀ y, y ∈ grpWith (get_version_key z) out1
            ++ grpWith (get_version_key z) (Br.filter releaseKeep)
          ↔ y ∈ s1 :: grpWith (get_version_key z) (Br.filter releaseKeep) := by
        intro y
        rw [List.mem_append, List.mem_cons, hmemo y]
      have hbz' : IsBest (s1 :: grpWith (get_version_key z)
          (Br.filter releaseKeep)) z := isBest_congr hcongr hbz
      have hb1 : IsBest (grpWith (get_version_key z) (releaseCands Ar Hr)) s1 := by
        have hb1' := select_result_isBest (hsel1 s1 hs1f)
        rw [hs1k] at hb1'
        exact hb1'
      exact isBest_compose hb1 hbz'
    · have hgo : grpWith (get_version_key z) out1 = [] := by
        rcases hgw : grpWith (get_version_key z) out1 with _ | ⟨y, ys⟩
        · rfl
        · exfalso
          have hy : y ∈ grpWith (get_version_key z) out1 := by
            rw [hgw]
            simp
          rcases mem_grpWith_iff.mp hy with ⟨hy1, hy2⟩
          exact hkf1 (hy2 ▸ List.mem_map_of_mem get_version_key ((hm1 y).mp hy1))
      have hg1e : grpWith (get_version_key z) (releaseCands Ar Hr) = [] := by
        apply grpWith_eq_nil
        intro hmem
        have hfo : get_version_key z
            ∈ firstOccs ((releaseCands Ar Hr).map get_version_key) :=
          mem_firstOccs_iff.mpr hmem
        rw [← hk1] at hfo
        exact hkf1 hfo
      rw [hg1e, List.nil_append]
      rw [hgo, List.nil_append] at hbz
      exact hbz
  intro x
  constructor
  · intro hx
    exact hfwd x ((hm2 x).mp hx)
  · intro hb
    have hxpool : x ∈ releaseCands Ar Hr ++ Br.filter releaseKeep :=
      (mem_grpWith_iff.mp hb.1).1
    have hkc2 : get_version_key x ∈ (releaseCands Br out1).map get_version_key := by
      rcases List.mem_append.mp hxpool with hh | hh
      · have h1' : get_version_key x
            ∈ firstOccs ((releaseCands Ar Hr).map get_version_key) :=
          mem_firstOccs_iff.mpr (List.mem_map_of_mem get_version_key hh)
        rw [← hk1] at h1'
        rcases List.mem_map.mp h1' with ⟨s1, hs1f, hs1k⟩
        have hs1c : s1 ∈ releaseCands Br out1 :=
          List.mem_append.mpr (Or.inl ((hm1 s1).mpr hs1f))
        exact hs1k ▸ List.mem_map_of_mem get_version_key hs1c
      · have hxc : x ∈ releaseCands Br out1 := List.mem_append.mpr (Or.inr hh)
        exact List.mem_map_of_mem get_version_key hxc
    have hkf2 : get_version_key x ∈ f2.map get_version_key := by
      rw [hk2]
      exact mem_firstOccs_iff.mpr hkc2
    rcases List.mem_map.mp hkf2 with ⟨y, hyf2, hyk⟩
    have hby : IsBest (grpWith (get_version_key x)
        (releaseCands Ar Hr ++ Br.filter releaseKeep)) y := by
      have hby' := hfwd y hyf2
      rw [hyk] at hby'
      exact hby'
    have hgts : (grpWith (get_version_key x)
        (releaseCands Ar Hr ++ Br.filter releaseKeep)).Pairwise
        (fun a b => tsv a ≠ tsv b) :=
      List.Pairwise.sublist (List.filter_sublist _) hts
    have hyx : y = x := isBest_unique hgts hby hb
    exact (hm2 x).mpr (hyx ▸ hyf2)

theorem two_step_release_comm {Hr Ar Br o1 out o1' out' : List TestResult}
    (hts : (releaseCands Ar Hr ++ Br.filter releaseKeep).Pairwise
        (fun a b => tsv a ≠ tsv b))
    (h1 : merge_release_tests Ar Hr = some o1)
    (h2 : merge_release_tests Br o1 = some out)
    (h1' : merge_release_tests Br Hr = some o1')
    (h2' : merge_release_tests Ar o1' = some out') :
    ∀ x, x ∈ out ↔ x ∈ out' := by
  have hperm : (releaseCands Ar Hr ++ Br.filter releaseKeep).Perm
      (releaseCands Br Hr ++ Ar.filter releaseKeep) := by
    show ((Hr ++ Ar.filter releaseKeep) ++ Br.filter releaseKeep).Perm
      ((Hr ++ Br.filter releaseKeep) ++ Ar.filter releaseKeep)
    rw [List.append_assoc, List.append_assoc]
    exact List.Perm.append_left _ List.perm_append_comm
  have hts' := (hperm.pairwise_iff (fun h' => Ne.symm h')).mp hts
  have hAB := two_step_release_mem hts h1 h2
  have hBA := two_step_release_mem hts' h1' h2'
  intro x
  rw [hAB x, hBA x]
  have hmm : ∀ y, y ∈ grpWith (get_version_key x)
        (releaseCands Ar Hr ++ Br.filter releaseKeep)
      ↔ y ∈ grpWith (get_version_key x)
        (releaseCands Br Hr ++ Ar.filter releaseKeep) := by
    intro y
    rw [mem_grpWith_iff, mem_grpWith_iff, hperm.mem_iff]
  exact ⟨fun hb => isBest_congr hmm hb,
    fun hb => isBest_congr (fun y => (hmm y).symm) hb⟩

/-! ## Lemmas: field extraction from a merged bucket -/

theorem merge_ocp_fields {nb : NewBucket} {ex mb : RawBucket} {L : Option Nat}
    (h : merge_ocp_version_results nb ex L = some mb) :
    ∃ bt rt,
      merge_bundle_tests nb.bundle_tests (ex.bundle_tests.getD []) L = some bt ∧
      merge_release_tests nb.release_tests (ex.release_tests.getD []) = some rt ∧
      mb.bundle_tests = some bt ∧ mb.release_tests = some rt := by
  unfold merge_ocp_version_results at h
  rcases hbt : merge_bundle_tests nb.bundle_tests (ex.bundle_tests.getD []) L
      with _ | bt
  · rw [hbt] at h
    exact absurd h (by simp)
  rw [hbt] at h
  rcases hrt : merge_release_tests nb.release_tests (ex.release_tests.getD [])
      with _ | rt
  · rw [hrt] at h
    exact absurd h (by simp)
  rw [hrt] at h
  have hmb := (Option.some_inj.mp h).symm
  exact ⟨bt, rt, rfl, rfl, by rw [hmb], by rw [hmb]⟩

/-! ## Claim theorems -/

/-- Claim C1 (evidence of the code bug): the release merge keeps a
persisted ABORTED observation and a persisted observation whose platform
version is not an exact semantic version; the exclusion filter runs only on
the new batch, contradicting the function's own docstring ("Both inputs are
filtered to exclude ABORTED and non-exact semantic versions") and its
comment ("apply filtering to clean up legacy data"). -/
theorem merge_release_tests_keeps_bad_persisted_entries :
    merge_release_tests [] [⟨"4.14.1", "23.9.0", "ABORTED", "u", "10"⟩]
      = some [⟨"4.14.1", "23.9.0", "ABORTED", "u", "10"⟩] ∧
    merge_release_tests [] [⟨"4.14", "23.9.0", "SUCCESS", "u", "10"⟩]
      = some [⟨"4.14", "23.9.0", "SUCCESS", "u", "10"⟩] := by
  exact ⟨by decide, by decide⟩

/-- Claim C2: merging an observation batch `X` into a persisted history and
then merging the same `X` into the result yields an identical history —
bucket by bucket, for the bundle list, the release list, the source links
and the notes: `merge(X, merge(X, H)) = merge(X, H)`.  The batch's
OCP-version keys are distinct since the batch is a Python dict. -/
theorem merge_idempotent (X : List (String × NewBucket)) (H Y : List (String × RawBucket))
    (L : Option Nat) (hnd : (X.map Prod.fst).Nodup)
    (h : merge_and_save_results X H L = some Y) :
    merge_and_save_results X Y L = some Y :=
  merge_and_save_results_idem_aux hnd h

set_option maxRecDepth 100000 in
/-- Witness for the C2 theorem at a concrete batch and history. -/
theorem merge_idempotent_witness :
    merge_and_save_results wX wY (some 2) = some wY :=
  merge_idempotent wX wH wY (some 2) (by decide) (by rfl)

/-- Claim C9: the notes of every platform bucket of the merged history equal
the notes of that bucket in the persisted history (the empty list when the
bucket or the field is absent); the reconciler never adds, removes or
reorders notes, whatever the new batch contains. -/
theorem notes_passthrough (X : List (String × NewBucket)) (H Y : List (String × RawBucket))
    (L : Option Nat) (hnd : (X.map Prod.fst).Nodup)
    (h : merge_and_save_results X H L = some Y) (k : String) :
    ((alookup k Y).getD emptyRawBucket).notes.getD []
      = ((alookup k H).getD emptyRawBucket).notes.getD [] := by
  rcases merge_buckets_loop_lookup hnd (by exact h) with ⟨hA, hB⟩
  by_cases hk : k ∈ X.map Prod.fst
  · rcases List.mem_map.mp hk with ⟨⟨k', nb⟩, hmem, hfst⟩
    have hk' : k' = k := hfst
    subst hk'
    rcases hB k' nb hmem with ⟨mb, hmb, hlk⟩
    rw [hlk]
    unfold merge_ocp_version_results at hmb
    rcases hbt : merge_bundle_tests nb.bundle_tests
        ((((alookup k' H).getD emptyRawBucket).bundle_tests).getD []) L with _ | bt
    · rw [hbt] at hmb
      exact absurd hmb (by simp)
    rw [hbt] at hmb
    rcases hrt : merge_release_tests nb.release_tests
        ((((alookup k' H).getD emptyRawBucket).release_tests).getD []) with _ | rt
    · rw [hrt] at hmb
      exact absurd hmb (by simp)
    rw [hrt] at hmb
    have hmbeq := (Option.some_inj.mp hmb).symm
    rw [hmbeq]
    rfl
  · rw [hA k hk]

set_option maxRecDepth 100000 in
/-- Witness for the C9 theorem: the merged bucket keeps the persisted note
and an untouched bucket keeps its notes too. -/
theorem notes_passthrough_witness :
    ((alookup "4.14" wY).getD emptyRawBucket).notes.getD []
      = ((alookup "4.14" wH).getD emptyRawBucket).notes.getD [] :=
  notes_passthrough wX wH wY (some 2) (by decide) (by rfl) "4.14"

/-- Claim C10: a platform bucket present in the persisted history but absent
from the new batch is carried into the merged output completely unchanged —
no deduplication, truncation, discarding, link merging or re-sorting is
applied to it. -/
theorem untouched_bucket_unchanged (X : List (String × NewBucket))
    (H Y : List (String × RawBucket)) (L : Option Nat)
    (hnd : (X.map Prod.fst).Nodup)
    (h : merge_and_save_results X H L = some Y) (k : String)
    (hk : k ∉ X.map Prod.fst) :
    alookup k Y = alookup k H :=
  (merge_buckets_loop_lookup hnd h).1 k hk

set_option maxRecDepth 100000 in
/-- Witness for the C10 theorem: the 4.12 bucket, absent from the batch, is
carried over unchanged. -/
theorem untouched_bucket_unchanged_witness :
    alookup "4.12" wY = alookup "4.12" wH :=
  untouched_bucket_unchanged wX wH wY (some 2) (by decide) (by rfl) "4.12" (by decide)

/-- Claim C4: in the release merge output exactly one observation survives
per exact version pair; it is drawn from the candidate pool (persisted
entries plus filtered new entries); if the pair has any SUCCESS candidate
the survivor is a SUCCESS candidate of maximal observed_at among the
SUCCESS candidates, otherwise it has maximal observed_at among all
candidates of the pair. -/
theorem release_merge_dedup (N E out : List TestResult)
    (h : merge_release_tests N E = some out) :
    (∀ r1 ∈ out, ∀ r2 ∈ out, get_version_key r1 = get_version_key r2 → r1 = r2) ∧
    (∀ r ∈ out, r ∈ releaseCands N E) ∧
    (∀ c ∈ releaseCands N E, ∃ r ∈ out, get_version_key r = get_version_key c) ∧
    (∀ r ∈ out,
      ((∃ c ∈ releaseCands N E, get_version_key c = get_version_key r ∧
          c.test_status = STATUS_SUCCESS) →
        (r.test_status = STATUS_SUCCESS ∧
         ∀ c ∈ releaseCands N E, get_version_key c = get_version_key r →
           c.test_status = STATUS_SUCCESS → tsv c ≤ tsv r)) ∧
      ((¬ ∃ c ∈ releaseCands N E, get_version_key c = get_version_key r ∧
          c.test_status = STATUS_SUCCESS) →
        ∀ c ∈ releaseCands N E, get_version_key c = get_version_key r →
          tsv c ≤ tsv r)) := by
  rcases merge_release_tests_eq_some_iff.mp h with ⟨final, hcol, hts, hout⟩
  have hne : ∀ g ∈ (firstOccs ((releaseCands N E).map get_version_key)).map
      (fun k => (k, grpWith k (releaseCands N E))), ¬ g.2 = [] := by
    intro g hg
    rcases List.mem_map.mp hg with ⟨k, hk, rfl⟩
    rcases List.mem_map.mp (mem_firstOccs_iff.mp hk) with ⟨x, hx, rfl⟩
    intro hnil
    have hnil' : grpWith (get_version_key x) (releaseCands N E) = [] := hnil
    have hxg : x ∈ grpWith (get_version_key x) (releaseCands N E) :=
      mem_grpWith_iff.mpr ⟨hx, rfl⟩
    rw [hnil'] at hxg
    exact List.not_mem_nil x hxg
  have hfa := collect_selected_forall₂_of_eq hne hcol
  have hkeysfinal : final.map get_version_key
      = firstOccs ((releaseCands N E).map get_version_key) := final_keys_of_forall₂ hfa
  have hperm : out.Perm final := hout ▸ List.perm_insertionSort tsDesc final
  have hndout : (out.map get_version_key).Nodup := by
    have hpmap : (out.map get_version_key).Perm (final.map get_version_key) :=
      hperm.map get_version_key
    rw [hpmap.nodup_iff, hkeysfinal]
    exact nodup_firstOccs _
  have hselmem := @forall₂_sel_mem _ (releaseCands N E) _ hfa
  refine ⟨?_, ?_, ?_, ?_⟩
  · exact fun r1 h1 r2 h2 hk => List.inj_on_of_nodup_map hndout h1 h2 hk
  · intro r hr
    have hspec := select_result_spec (hselmem r (hperm.mem_iff.mp hr))
    exact (mem_grpWith_iff.mp hspec.1).1
  · intro c hc
    have hkc : get_version_key c ∈ firstOccs ((releaseCands N E).map get_version_key) :=
      mem_firstOccs_iff.mpr (List.mem_map_of_mem get_version_key hc)
    rw [← hkeysfinal] at hkc
    rcases List.mem_map.mp hkc with ⟨r, hrf, hrk⟩
    exact ⟨r, hperm.mem_iff.mpr hrf, hrk⟩
  · intro r hr
    have hsel := hselmem r (hperm.mem_iff.mp hr)
    have hspec := select_result_spec hsel
    constructor
    · rintro ⟨c, hc, hck, hcs⟩
      have hcg : c ∈ grpWith (get_version_key r) (releaseCands N E) :=
        mem_grpWith_iff.mpr ⟨hc, hck⟩
      rcases hspec.2 with ⟨hsucc, _, hmax⟩ | ⟨_, hnos, _⟩
      · refine ⟨hsucc, ?_⟩
        intro c' hc' hck' hcs'
        exact (hmax c' (mem_grpWith_iff.mpr ⟨hc', hck'⟩) hcs').1
      · exact absurd hcs (hnos c hcg)
    · intro hnone c hc hck
      rcases hspec.2 with ⟨hsucc, _, _⟩ | ⟨_, _, hmax⟩
      · exact absurd ⟨r, (mem_grpWith_iff.mp hspec.1).1, rfl, hsucc⟩ hnone
      · exact (hmax c (mem_grpWith_iff.mpr ⟨hc, hck⟩)).1

set_option maxRecDepth 100000 in
/-- Witness for the C4 theorem: the spec's own example — a persisted
FAILURE at ts 10 loses to a new SUCCESS at ts 5. -/
theorem release_merge_dedup_witness :
    (∀ r1 ∈ wRout, ∀ r2 ∈ wRout, get_version_key r1 = get_version_key r2 → r1 = r2) ∧
    (∀ r ∈ wRout, r ∈ releaseCands wRelN wRelE) ∧
    (∀ c ∈ releaseCands wRelN wRelE, ∃ r ∈ wRout,
      get_version_key r = get_version_key c) ∧
    (∀ r ∈ wRout,
      ((∃ c ∈ releaseCands wRelN wRelE, get_version_key c = get_version_key r ∧
          c.test_status = STATUS_SUCCESS) →
        (r.test_status = STATUS_SUCCESS ∧
         ∀ c ∈ releaseCands wRelN wRelE, get_version_key c = get_version_key r →
           c.test_status = STATUS_SUCCESS → tsv c ≤ tsv r)) ∧
      ((¬ ∃ c ∈ releaseCands wRelN wRelE, get_version_key c = get_version_key r ∧
          c.test_status = STATUS_SUCCESS) →
        ∀ c ∈ releaseCands wRelN wRelE, get_version_key c = get_version_key r →
          tsv c ≤ tsv r)) :=
  release_merge_dedup wRelN wRelE wRout (by rfl)

/-- Claim C5: the bundle merge deduplicates by BuildKey with the new batch
overwriting persisted entries (the map holds, at every key, the last new
entry with that key, else the last persisted one); the output is sorted by
observed_at descending, drawn from the deduplicated values; every
deduplicated value left out ranks no higher than any kept one; with a
configured limit `l` the output length is exactly `min l` (number of
deduplicated candidates), and with no limit the output consists of all
deduplicated candidates. -/
theorem bundle_merge_pruning (N E out : List TestResult) (L : Option Nat)
    (h : merge_bundle_tests N E L = some out) :
    (∀ k, alookup k ((E ++ N).foldl bupsert []) = (lastWith k N).or (lastWith k E)) ∧
    out.Sorted tsDesc ∧
    (∀ x ∈ out, x ∈ bundleVals N E) ∧
    (∀ x ∈ bundleVals N E, x ∉ out → ∀ y ∈ out, tsv x ≤ tsv y) ∧
    (∀ l, L = some l → out.length = min l (bundleVals N E).length) ∧
    (L = none → ∀ x, x ∈ out ↔ x ∈ bundleVals N E) := by
  rcases merge_bundle_tests_eq_some_iff.mp h with ⟨hbk, hts, hout⟩
  have hsortsort : ((bundleVals N E).insertionSort tsDesc).Sorted tsDesc :=
    List.sorted_insertionSort tsDesc _
  have hperm : ((bundleVals N E).insertionSort tsDesc).Perm (bundleVals N E) :=
    List.perm_insertionSort tsDesc _
  obtain ⟨D, hD⟩ : ∃ D, (bundleVals N E).insertionSort tsDesc = out ++ D := by
    cases L with
    | none => exact ⟨[], by rw [hout]; simp⟩
    | some l =>
      refine ⟨((bundleVals N E).insertionSort tsDesc).drop l, ?_⟩
      rw [hout]
      exact (List.take_append_drop l _).symm
  have hsortD := hD ▸ hsortsort
  refine ⟨?_, ?_, ?_, ?_, ?_, ?_⟩
  · intro k
    rw [alookup_foldl_bupsert, lastWith_append]
    rw [show alookup k ([] : List (BKey × TestResult)) = none from rfl, Option.or_none]
  · exact (List.pairwise_append.mp hsortD).1
  · exact fun x hx => hperm.mem_iff.mp (hD ▸ List.mem_append_left D hx)
  · intro x hx hxout y hy
    have hxs : x ∈ out ++ D := hD ▸ hperm.mem_iff.mpr hx
    rcases List.mem_append.mp hxs with h' | h'
    · exact absurd h' hxout
    · exact (List.pairwise_append.mp hsortD).2.2 y hy x h'
  · intro l hL
    subst hL
    rw [hout]
    rw [show ((match some l with
        | some l => ((bundleVals N E).insertionSort tsDesc).take l
        | none => (bundleVals N E).insertionSort tsDesc) : List TestResult)
        = ((bundleVals N E).insertionSort tsDesc).take l from rfl]
    rw [List.length_take, List.length_insertionSort]
  · intro hL x
    subst hL
    rw [hout]
    exact hperm.mem_iff

set_option maxRecDepth 100000 in
/-- Witness for the C5 theorem: three candidates, two sharing a BuildKey
(the new SUCCESS overwrites the persisted FAILURE), limit 1 keeps only the
most recent survivor. -/
theorem bundle_merge_pruning_witness :
    (∀ k, alookup k ((wBunE ++ wBunN).foldl bupsert [])
        = (lastWith k wBunN).or (lastWith k wBunE)) ∧
    wBout.Sorted tsDesc ∧
    (∀ x ∈ wBout, x ∈ bundleVals wBunN wBunE) ∧
    (∀ x ∈ bundleVals wBunN wBunE, x ∉ wBout → ∀ y ∈ wBout, tsv x ≤ tsv y) ∧
    (∀ l, (some 1 : Option Nat) = some l →
      wBout.length = min l (bundleVals wBunN wBunE).length) ∧
    ((some 1 : Option Nat) = none → ∀ x, x ∈ wBout ↔ x ∈ bundleVals wBunN wBunE) :=
  bundle_merge_pruning wBunN wBunE wBout (some 1) (by rfl)

/-! ## Lemmas: the structural diff -/

theorem leafAt_node_nil (p : List String) : leafAt (VTree.node []) p = none := by
  cases p with
  | nil => rfl
  | cons k p => rfl

theorem leafAt_node_cons (k₀ : String) (t : VTree) (m : List (String × VTree))
    (k : String) (p : List String) :
    leafAt (VTree.node ((k₀, t) :: m)) (k :: p)
      = if k₀ = k then leafAt t p else leafAt (VTree.node m) (k :: p) := by
  show (match alookup k ((k₀, t) :: m) with | some u => leafAt u p | none => none) = _
  by_cases h : k₀ = k
  · rw [show alookup k ((k₀, t) :: m) = some t from by simp [alookup, h], if_pos h]
  · rw [show alookup k ((k₀, t) :: m) = alookup k m from by simp [alookup, h], if_neg h]
    rfl

theorem leafAt_node_getD (m : List (String × VTree)) (k : String) (p : List String) :
    leafAt (VTree.node m) (k :: p) = leafAt ((alookup k m).getD (VTree.node [])) p := by
  show (match alookup k m with | some u => leafAt u p | none => none) = _
  rcases h : alookup k m with _ | t
  · rw [show (none : Option VTree).getD (VTree.node []) = VTree.node [] from rfl,
      leafAt_node_nil]
  · rfl

theorem leafAt_node_none {m : List (String × VTree)} {k : String} (p : List String)
    (h : alookup k m = none) : leafAt (VTree.node m) (k :: p) = none := by
  show (match alookup k m with | some u => leafAt u p | none => none) = _
  rw [h]

theorem leafAt_node_some {m : List (String × VTree)} {k : String} {t : VTree}
    (p : List String) (h : alookup k m = some t) :
    leafAt (VTree.node m) (k :: p) = leafAt t p := by
  show (match alookup k m with | some u => leafAt u p | none => none) = _
  rw [h]

theorem wfL_cons {k : String} {t : VTree} {rest : List (String × VTree)}
    (h : wfL ((k, t) :: rest) = true) :
    k ∉ rest.map Prod.fst ∧ wfL rest = true := by
  cases t with
  | leaf s =>
    rw [wfL, Bool.and_eq_true, Bool.not_eq_true', decide_eq_false_iff_not] at h
    exact h
  | node sub =>
    rw [wfL, Bool.and_eq_true, Bool.and_eq_true, Bool.not_eq_true',
      decide_eq_false_iff_not] at h
    exact ⟨h.1.1, h.2⟩

theorem wfL_cons_node {k : String} {sub rest : List (String × VTree)}
    (h : wfL ((k, VTree.node sub) :: rest) = true) : wfL sub = true := by
  rw [wfL, Bool.and_eq_true, Bool.and_eq_true] at h
  exact h.1.2

/-- The full correctness invariant of calculate_diffs: the diff's keys come
from `new`, and the diff holds leaf value `v` at a path exactly when `new`
holds `v` there and `old` does not. -/
theorem calc_diffs_spec (old : VTree) (newl : List (String × VTree)) :
    wfL newl = true → ∀ d, calc_diffs old newl = some d →
      (∀ k', k' ∈ d.map Prod.fst → k' ∈ newl.map Prod.fst) ∧
      (∀ p v, leafAt (VTree.node d) p = some v ↔
        (leafAt (VTree.node newl) p = some v ∧ ¬ leafAt old p = some v)) := by
  induction old, newl using calc_diffs.induct with
  | case1 old =>
    intro hwf d hd
    rw [show calc_diffs old [] = some [] from by simp [calc_diffs]] at hd
    have hd' : d = [] := (Option.some_inj.mp hd).symm
    subst hd'
    refine ⟨by simp, ?_⟩
    intro p v
    have h1 : leafAt (VTree.node ([] : List (String × VTree))) p = none := leafAt_node_nil p
    rw [h1]
    simp
  | case2 k s rest m hlk ih =>
    intro hwf d hd
    rcases wfL_cons hwf with ⟨hknotin, hwfr⟩
    rw [show calc_diffs (VTree.node m) ((k, VTree.leaf s) :: rest)
        = (calc_diffs (VTree.node m) rest).map (fun dr => (k, VTree.leaf s) :: dr)
        from by simp [calc_diffs, hlk]] at hd
    rcases Option.map_eq_some'.mp hd with ⟨dr, hdr, hdeq⟩
    subst hdeq
    rcases ih hwfr dr hdr with ⟨ihk, ihp⟩
    constructor
    · intro k' hk'
      rw [List.map_cons, List.mem_cons] at hk'
      rcases hk' with hh | hh
      · simp [hh]
      · simp only [List.map_cons, List.mem_cons]
        exact Or.inr (ihk k' hh)
    · intro p v
      rcases p with _ | ⟨k', p'⟩
      · rw [show leafAt (VTree.node ((k, VTree.leaf s) :: dr)) [] = none from rfl,
          show leafAt (VTree.node ((k, VTree.leaf s) :: rest)) [] = none from rfl]
        simp
      · rw [leafAt_node_cons, leafAt_node_cons]
        by_cases hkk : k = k'
        · rw [if_pos hkk, if_pos hkk]
          subst hkk
          rw [leafAt_node_none p' hlk]
          simp
        · rw [if_neg hkk, if_neg hkk]
          exact ihp (k' :: p') v
  | case3 k rest m os' hlk ih =>
    intro hwf d hd
    rcases wfL_cons hwf with ⟨hknotin, hwfr⟩
    rw [show calc_diffs (VTree.node m) ((k, VTree.leaf os') :: rest)
        = calc_diffs (VTree.node m) rest from by simp [calc_diffs, hlk]] at hd
    rcases ih hwfr d hd with ⟨ihk, ihp⟩
    constructor
    · intro k' hk'
      simp only [List.map_cons, List.mem_cons]
      exact Or.inr (ihk k' hk')
    · intro p v
      rcases p with _ | ⟨k', p'⟩
      · rw [show leafAt (VTree.node ((k, VTree.leaf os') :: rest)) [] = none from rfl]
        have hdnone : leafAt (VTree.node d) [] = none := by cases d <;> rfl
        rw [hdnone]
        simp
      · rw [leafAt_node_cons]
        by_cases hkk : k = k'
        · rw [if_pos hkk]
          subst hkk
          have hdk : leafAt (VTree.node d) (k :: p') = none := by
            apply leafAt_node_none
            rw [alookup_eq_none_iff]
            intro hmem
            exact hknotin (ihk k hmem)
          rw [hdk, leafAt_node_some p' hlk]
          constructor
          · intro hh
            exact absurd hh (by simp)
          · rintro ⟨h1, h2⟩
            exact absurd h1 h2
        · rw [if_neg hkk]
          exact ihp (k' :: p') v
  | case4 k s rest m os' hlk hne ih =>
    intro hwf d hd
    rcases wfL_cons hwf with ⟨hknotin, hwfr⟩
    rw [show calc_diffs (VTree.node m) ((k, VTree.leaf s) :: rest)
        = (calc_diffs (VTree.node m) rest).map (fun dr => (k, VTree.leaf s) :: dr)
        from by simp [calc_diffs, hlk, hne]] at hd
    rcases Option.map_eq_some'.mp hd with ⟨dr, hdr, hdeq⟩
    subst hdeq
    rcases ih hwfr dr hdr with ⟨ihk, ihp⟩
    constructor
    · intro k' hk'
      rw [List.map_cons, List.mem_cons] at hk'
      rcases hk' with hh | hh
      · simp [hh]
      · simp only [List.map_cons, List.mem_cons]
        exact Or.inr (ihk k' hh)
    · intro p v
      rcases p with _ | ⟨k', p'⟩
      · rw [show leafAt (VTree.node ((k, VTree.leaf s) :: dr)) [] = none from rfl,
          show leafAt (VTree.node ((k, VTree.leaf s) :: rest)) [] = none from rfl]
        simp
      · rw [leafAt_node_cons, leafAt_node_cons]
        by_cases hkk : k = k'
        · rw [if_pos hkk, if_pos hkk]
          subst hkk
          rw [leafAt_node_some p' hlk]
          rcases p' with _ | ⟨k'', p''⟩
          · rw [show leafAt (VTree.leaf s) [] = some s from rfl,
              show leafAt (VTree.leaf os') [] = some os' from rfl]
            constructor
            · intro hh
              refine ⟨hh, ?_⟩
              intro hcon
              have := Option.some_inj.mp hcon
              have hvs := Option.some_inj.mp hh
              exact hne (by rw [this, ← hvs])
            · rintro ⟨h1, _⟩
              exact h1
          · rw [show leafAt (VTree.leaf s) (k'' :: p'') = none from rfl]
            simp
        · rw [if_neg hkk, if_neg hkk]
          exact ihp (k' :: p') v
  | case5 k s rest m a hlk ih =>
    intro hwf d hd
    rcases wfL_cons hwf with ⟨hknotin, hwfr⟩
    rw [show calc_diffs (VTree.node m) ((k, VTree.leaf s) :: rest)
        = (calc_diffs (VTree.node m) rest).map (fun dr => (k, VTree.leaf s) :: dr)
        from by simp [calc_diffs, hlk]] at hd
    rcases Option.map_eq_some'.mp hd with ⟨dr, hdr, hdeq⟩
    subst hdeq
    rcases ih hwfr dr hdr with ⟨ihk, ihp⟩
    constructor
    · intro k' hk'
      rw [List.map_cons, List.mem_cons] at hk'
      rcases hk' with hh | hh
      · simp [hh]
      · simp only [List.map_cons, List.mem_cons]
        exact Or.inr (ihk k' hh)
    · intro p v
      rcases p with _ | ⟨k', p'⟩
      · rw [show leafAt (VTree.node ((k, VTree.leaf s) :: dr)) [] = none from rfl,
          show leafAt (VTree.node ((k, VTree.leaf s) :: rest)) [] = none from rfl]
        simp
      · rw [leafAt_node_cons, leafAt_node_cons]
        by_cases hkk : k = k'
        · rw [if_pos hkk, if_pos hkk]
          subst hkk
          rw [leafAt_node_some p' hlk]
          rcases p' with _ | ⟨k'', p''⟩
          · rw [show leafAt (VTree.leaf s) [] = some s from rfl,
              show leafAt (VTree.node a) [] = none from rfl]
            simp
          · rw [show leafAt (VTree.leaf s) (k'' :: p'') = none from rfl]
            simp
        · rw [if_neg hkk, if_neg hkk]
          exact ihp (k' :: p') v
  | case6 k s rest os hin =>
    intro hwf d hd
    rw [show calc_diffs (VTree.leaf os) ((k, VTree.leaf s) :: rest) = none
        from by simp [calc_diffs, hin]] at hd
    exact absurd hd (by simp)
  | case7 k s rest os hin ih =>
    intro hwf d hd
    rcases wfL_cons hwf with ⟨hknotin, hwfr⟩
    rw [show calc_diffs (VTree.leaf os) ((k, VTree.leaf s) :: rest)
        = (calc_diffs (VTree.leaf os) rest).map (fun dr => (k, VTree.leaf s) :: dr)
        from by simp [calc_diffs, hin]] at hd
    rcases Option.map_eq_some'.mp hd with ⟨dr, hdr, hdeq⟩
    subst hdeq
    rcases ih hwfr dr hdr with ⟨ihk, ihp⟩
    constructor
    · intro k' hk'
      rw [List.map_cons, List.mem_cons] at hk'
      rcases hk' with hh | hh
      · simp [hh]
      · simp only [List.map_cons, List.mem_cons]
        exact Or.inr (ihk k' hh)
    · intro p v
      rcases p with _ | ⟨k', p'⟩
      · rw [show leafAt (VTree.node ((k, VTree.leaf s) :: dr)) [] = none from rfl,
          show leafAt (VTree.node ((k, VTree.leaf s) :: rest)) [] = none from rfl]
        simp
      · rw [leafAt_node_cons, leafAt_node_cons]
        by_cases hkk : k = k'
        · rw [if_pos hkk, if_pos hkk]
          subst hkk
          rw [show leafAt (VTree.leaf os) (k :: p') = none from rfl]
          simp
        · rw [if_neg hkk, if_neg hkk]
          have := ihp (k' :: p') v
          rw [show leafAt (VTree.leaf os) (k' :: p') = none from rfl] at this ⊢
          exact this
  | case8 k sub rest a =>
    intro hwf d hd
    rw [show calc_diffs (VTree.leaf a) ((k, VTree.node sub) :: rest) = none
        from by simp [calc_diffs]] at hd
    exact absurd hd (by simp)
  | case9 k sub rest m hsub ih =>
    intro hwf d hd
    rw [show calc_diffs (VTree.node m) ((k, VTree.node sub) :: rest) = none
        from by simp [calc_diffs, hsub]] at hd
    exact absurd hd (by simp)
  | case10 k sub rest m dr hsub hrest ihsub ihrest =>
    intro hwf d hd
    rw [show calc_diffs (VTree.node m) ((k, VTree.node sub) :: rest) = none
        from by simp [calc_diffs, hsub, hrest]] at hd
    exact absurd hd (by simp)
  | case11 k sub rest m sd hsubeq dr hdreq ihsub ihrest =>
    intro hwf d hd
    rcases wfL_cons hwf with ⟨hknotin, hwfr⟩
    have hwfs := wfL_cons_node hwf
    rw [show calc_diffs (VTree.node m) ((k, VTree.node sub) :: rest)
        = some (if sd.isEmpty then dr else (k, VTree.node sd) :: dr)
        from by simp [calc_diffs, hsubeq, hdreq]] at hd
    have hdeq := (Option.some_inj.mp hd).symm
    subst hdeq
    rcases ihsub hwfs sd hsubeq with ⟨ihsk, ihsp⟩
    rcases ihrest hwfr dr hdreq with ⟨ihk, ihp⟩
    have hold : ∀ p', leafAt (VTree.node m) (k :: p')
        = leafAt ((alookup k m).getD (VTree.node [])) p' :=
      fun p' => leafAt_node_getD m k p'
    constructor
    · intro k' hk'
      by_cases hsd : sd.isEmpty
      · rw [if_pos hsd] at hk'
        simp only [List.map_cons, List.mem_cons]
        exact Or.inr (ihk k' hk')
      · rw [if_neg hsd] at hk'
        rw [List.map_cons, List.mem_cons] at hk'
        rcases hk' with hh | hh
        · simp [hh]
        · simp only [List.map_cons, List.mem_cons]
          exact Or.inr (ihk k' hh)
    · intro p v
      rcases p with _ | ⟨k', p'⟩
      · have h1 : leafAt (VTree.node (if sd.isEmpty then dr
            else (k, VTree.node sd) :: dr)) [] = none := by
          by_cases hsd : sd.isEmpty
          · rw [if_pos hsd]
            cases dr <;> rfl
          · rw [if_neg hsd]
            rfl
        rw [h1, show leafAt (VTree.node ((k, VTree.node sub) :: rest)) [] = none from rfl]
        simp
      · rw [leafAt_node_cons]
        by_cases hkk : k = k'
        · rw [if_pos hkk]
          subst hkk
          rw [hold p']
          by_cases hsd : sd.isEmpty
          · rw [if_pos hsd]
            have hsdnil : sd = [] := by
              rcases sd with _ | _
              · rfl
              · exact absurd hsd (by simp)
            have hdk : leafAt (VTree.node dr) (k :: p') = none := by
              apply leafAt_node_none
              rw [alookup_eq_none_iff]
              intro hmem
              exact hknotin (ihk k hmem)
            rw [hdk]
            have hiff := ihsp p' v
            rw [hsdnil, leafAt_node_nil] at hiff
            constructor
            · intro hh
              exact absurd hh (by simp)
            · intro hh
              exact absurd (hiff.mpr hh) (by simp)
          · rw [if_neg hsd]
            rw [leafAt_node_cons, if_pos rfl]
            exact ihsp p' v
        · rw [if_neg hkk]
          have h2 : leafAt (VTree.node (if sd.isEmpty then dr
              else (k, VTree.node sd) :: dr)) (k' :: p')
              = leafAt (VTree.node dr) (k' :: p') := by
            by_cases hsd : sd.isEmpty
            · rw [if_pos hsd]
            · rw [if_neg hsd, leafAt_node_cons, if_neg hkk]
          rw [h2]
          exact ihp (k' :: p') v

/-- Claim C6: for every pair of version trees (the new side well-formed,
with distinct keys per object as any JSON object has) on which
calculate_diffs (without catalog filtering) returns, the diff holds a leaf
value at a path exactly when the new tree holds that value at the path and
the old tree does not hold it there (absent, different, or a nested object
instead); in particular a key present in old but removed in new yields no
diff entry, and only nested-map values are recursed into. -/
theorem diff_correct (old : VTree) (newl d : List (String × VTree))
    (hwf : wfL newl = true) (h : calc_diffs old newl = some d)
    (p : List String) (v : String) :
    leafAt (VTree.node d) p = some v ↔
      (leafAt (VTree.node newl) p = some v ∧ ¬ leafAt old p = some v) :=
  ((calc_diffs_spec old newl hwf d h).2) p v

/-- Witness for the C6 theorem: the spec's own example diff. -/
theorem diff_correct_witness :
    leafAt (VTree.node wDiff) ["ocp", "4.12"] = some "4.12.2" ↔
      (leafAt (VTree.node wNew) ["ocp", "4.12"] = some "4.12.2" ∧
       ¬ leafAt wOld ["ocp", "4.12"] = some "4.12.2") :=
  diff_correct wOld wNew wDiff (by simp [wNew, wfL])
    (by simp [wOld, wNew, wDiff, calc_diffs, alookup]) ["ocp", "4.12"] "4.12.2"

/-- Claim C7: when at least one platform version is active, a proposed
component version survives the catalog filter iff the fetched catalog
entries show it available for at least one active platform version; a
single active platform version suffices for admission. -/
theorem catalog_admission (gpu_diffs ocp_versions : List (String × String))
    (m : SupportMatrix) (entries : List CatalogEntry) (gv full : String)
    (hactive : ¬ get_active_ocp_versions (ocp_versions.map Prod.fst) m = []) :
    (gv, full) ∈ filter_new_gpu_versions_by_catalog gpu_diffs ocp_versions m entries ↔
      ((gv, full) ∈ gpu_diffs ∧
       ∃ ocp ∈ get_active_ocp_versions (ocp_versions.map Prod.fst) m,
         is_available_in_catalog_entries entries full ocp = true) := by
  unfold filter_new_gpu_versions_by_catalog
  by_cases hgd : gpu_diffs.isEmpty
  · rw [if_pos hgd]
    have hnil : gpu_diffs = [] := List.isEmpty_iff.mp hgd
    subst hnil
    simp
  · rw [if_neg hgd, if_neg (by
      intro hh
      exact hactive (List.isEmpty_iff.mp hh))]
    rw [List.mem_filter]
    simp [List.any_eq_true]

/-- Witness for the C7 theorem: one active platform (4.14), one maintenance
platform (4.12); version 25.10.1 is in the 4.14 catalog and survives. -/
theorem catalog_admission_witness :
    ("25.10", "25.10.1") ∈
        filter_new_gpu_versions_by_catalog wGpuDiffs wOcpVersions wMatrix wEntries ↔
      (("25.10", "25.10.1") ∈ wGpuDiffs ∧
       ∃ ocp ∈ get_active_ocp_versions (wOcpVersions.map Prod.fst) wMatrix,
         is_available_in_catalog_entries wEntries "25.10.1" ocp = true) :=
  catalog_admission wGpuDiffs wOcpVersions wMatrix wEntries "25.10" "25.10.1" (by decide)

/-- Claim C8 (counterexample): normalize_pinned_gpu_operator does not
return a set — a list with duplicate entries comes back unchanged, with the
duplicate intact. -/
theorem normalize_pinned_not_set :
    normalize_pinned_gpu_operator (PyVal.pylist ["25.3", "25.3"]) = ["25.3", "25.3"] ∧
    ¬ (["25.3", "25.3"] : List String).Nodup :=
  ⟨rfl, by decide⟩

/-- Claim C8 (amended): normalize_pinned_gpu_operator always returns a
list — empty for none, a singleton for a string, a list unchanged with
order and duplicates preserved, the elements of a set, and empty for any
other value. -/
theorem normalize_pinned_to_list :
    normalize_pinned_gpu_operator PyVal.pynone = [] ∧
    (∀ s, normalize_pinned_gpu_operator (PyVal.pystr s) = [s]) ∧
    (∀ xs, normalize_pinned_gpu_operator (PyVal.pylist xs) = xs) ∧
    (∀ xs, normalize_pinned_gpu_operator (PyVal.pyset xs) = xs) ∧
    normalize_pinned_gpu_operator PyVal.pyother = [] :=
  ⟨rfl, fun _ => rfl, fun _ => rfl, fun _ => rfl, rfl⟩

set_option maxRecDepth 400000 in
/-- Claim C3 (counterexample): the merge is not order independent.  Four
buckets isolate four causes: a release timestamp tie (`"r"`) keeps batch
`A`'s observation in one order and batch `B`'s in the other; a bundle
timestamp tie at the configured limit (`"t"`) does the same; a build key
shared by the two batches (`"k"`) keeps whichever batch merged last; and a
batch observation overwriting a persisted observation's build key under a
limit (`"p"`) evicts different survivors per order. -/
theorem merge_not_order_independent :
    (¬ ∀ x, x ∈ relAt zYAB "r" ↔ x ∈ relAt zYBA "r") ∧
    (¬ ∀ x, x ∈ bunAt zYAB "t" ↔ x ∈ bunAt zYBA "t") ∧
    (¬ ∀ x, x ∈ bunAt zYAB "k" ↔ x ∈ bunAt zYBA "k") ∧
    (¬ ∀ x, x ∈ bunAt zYAB "p" ↔ x ∈ bunAt zYBA "p") := by
  refine ⟨?_, ?_, ?_, ?_⟩
  · intro hall
    have h := (hall zra).mp (by
      rw [show relAt zYAB "r" = [zra] from by rfl]
      exact List.mem_singleton.mpr rfl)
    rw [show relAt zYBA "r" = [zrb] from by rfl] at h
    exact absurd (List.mem_singleton.mp h) (by decide)
  · intro hall
    have h := (hall zt1).mp (by
      rw [show bunAt zYAB "t" = [zt1] from by rfl]
      exact List.mem_singleton.mpr rfl)
    rw [show bunAt zYBA "t" = [zt2] from by rfl] at h
    exact absurd (List.mem_singleton.mp h) (by decide)
  · intro hall
    have h := (hall zk2).mp (by
      rw [show bunAt zYAB "k" = [zk2] from by rfl]
      exact List.mem_singleton.mpr rfl)
    rw [show bunAt zYBA "k" = [zk1] from by rfl] at h
    exact absurd (List.mem_singleton.mp h) (by decide)
  · intro hall
    have h := (hall zp3).mp (by
      rw [show bunAt zYAB "p" = [zp3] from by rfl]
      exact List.mem_singleton.mpr rfl)
    rw [show bunAt zYBA "p" = [zp2] from by rfl] at h
    exact absurd (List.mem_singleton.mp h) (by decide)

/-- Claim C3 (amended): merging batch `A` then batch `B` agrees, as sets,
with merging `B` then `A` on the bundle list and the release list of any
bucket `k`, provided — as the counterexample forces — that the bucket's
combined bundle candidates (persisted, then `A`'s, then `B`'s) carry
pairwise-distinct build keys and pairwise-distinct timestamps, and that
its combined release candidates (persisted plus both batches' filtered
entries) carry pairwise-distinct timestamps.  The batch key lists are
duplicate-free since a batch is a Python dict. -/
theorem merge_order_independent (A B : List (String × NewBucket))
    (H YA YAB YB YBA : List (String × RawBucket)) (L : Option Nat) (k : String)
    (hndA : (A.map Prod.fst).Nodup) (hndB : (B.map Prod.fst).Nodup)
    (hA : merge_and_save_results A H L = some YA)
    (hAB : merge_and_save_results B YA L = some YAB)
    (hB : merge_and_save_results B H L = some YB)
    (hBA : merge_and_save_results A YB L = some YBA)
    (hbk : (bunAt H k ++ (nbAt A k).bundle_tests
        ++ (nbAt B k).bundle_tests).Pairwise (fun a b => bkD a ≠ bkD b))
    (hbts : (bunAt H k ++ (nbAt A k).bundle_tests
        ++ (nbAt B k).bundle_tests).Pairwise (fun a b => tsv a ≠ tsv b))
    (hrts : (releaseCands (nbAt A k).release_tests (relAt H k)
        ++ (nbAt B k).release_tests.filter releaseKeep).Pairwise
        (fun a b => tsv a ≠ tsv b)) :
    (∀ x, x ∈ bunAt YAB k ↔ x ∈ bunAt YBA k) ∧
    (∀ x, x ∈ relAt YAB k ↔ x ∈ relAt YBA k) := by
  have hlkA := merge_buckets_loop_lookup hndA (by exact hA)
  have hlkAB := merge_buckets_loop_lookup hndB (by exact hAB)
  have hlkB := merge_buckets_loop_lookup hndB (by exact hB)
  have hlkBA := merge_buckets_loop_lookup hndA (by exact hBA)
  rcases hka : alookup k A with _ | nbA
  · have hkA : k ∉ A.map Prod.fst := alookup_eq_none_iff.mp hka
    rcases hkb : alookup k B with _ | nbB
    · have hkB : k ∉ B.map Prod.fst := alookup_eq_none_iff.mp hkb
      have e1 : alookup k YAB = alookup k H := by
        rw [hlkAB.1 k hkB, hlkA.1 k hkA]
      have e2 : alookup k YBA = alookup k H := by
        rw [hlkBA.1 k hkA, hlkB.1 k hkB]
      have eb : bunAt YAB k = bunAt YBA k := by
        unfold bunAt
        rw [e1, e2]
      have er : relAt YAB k = relAt YBA k := by
        unfold relAt
        rw [e1, e2]
      exact ⟨fun x => by rw [eb], fun x => by rw [er]⟩
    · have hkBm : (k, nbB) ∈ B := mem_of_alookup_eq_some hkb
      rcases hlkB.2 k nbB hkBm with ⟨m1, hm1, hl1⟩
      rcases hlkAB.2 k nbB hkBm with ⟨m2, hm2, hl2⟩
      have hYAH : alookup k YA = alookup k H := hlkA.1 k hkA
      rw [hYAH] at hm2
      rw [hm1] at hm2
      have hm12 : m1 = m2 := Option.some_inj.mp hm2
      have e1 : alookup k YAB = some m1 := by
        rw [hl2, hm12]
      have e2 : alookup k YBA = some m1 := by
        rw [hlkBA.1 k hkA, hl1]
      have eb : bunAt YAB k = bunAt YBA k := by
        unfold bunAt
        rw [e1, e2]
      have er : relAt YAB k = relAt YBA k := by
        unfold relAt
        rw [e1, e2]
      exact ⟨fun x => by rw [eb], fun x => by rw [er]⟩
  · have hkAm : (k, nbA) ∈ A := mem_of_alookup_eq_some hka
    rcases hkb : alookup k B with _ | nbB
    · have hkB : k ∉ B.map Prod.fst := alookup_eq_none_iff.mp hkb
      rcases hlkA.2 k nbA hkAm with ⟨m1, hm1, hl1⟩
      rcases hlkBA.2 k nbA hkAm with ⟨m2, hm2, hl2⟩
      have hYBH : alookup k YB = alookup k H := hlkB.1 k hkB
      rw [hYBH] at hm2
      rw [hm1] at hm2
      have hm12 : m1 = m2 := Option.some_inj.mp hm2
      have e1 : alookup k YAB = some m1 := by
        rw [hlkAB.1 k hkB, hl1]
      have e2 : alookup k YBA = some m1 := by
        rw [hl2, hm12]
      have eb : bunAt YAB k = bunAt YBA k := by
        unfold bunAt
        rw [e1, e2]
      have er : relAt YAB k = relAt YBA k := by
        unfold relAt
        rw [e1, e2]
      exact ⟨fun x => by rw [eb], fun x => by rw [er]⟩
    · have hkBm : (k, nbB) ∈ B := mem_of_alookup_eq_some hkb
      rcases hlkA.2 k nbA hkAm with ⟨m1, hm1, hl1⟩
      rcases hlkAB.2 k nbB hkBm with ⟨m2, hm2, hl2⟩
      rcases hlkB.2 k nbB hkBm with ⟨m1', hm1', hl1'⟩
      rcases hlkBA.2 k nbA hkAm with ⟨m2', hm2', hl2'⟩
      rw [hl1, Option.getD_some] at hm2
      rw [hl1', Option.getD_some] at hm2'
      rcases merge_ocp_fields hm1 with ⟨bt1, rt1, hb1, hr1, hfb1, hfr1⟩
      rcases merge_ocp_fields hm2 with ⟨bt2, rt2, hb2, hr2, hfb2, hfr2⟩
      rcases merge_ocp_fields hm1' with ⟨bt1', rt1', hb1', hr1', hfb1', hfr1'⟩
      rcases merge_ocp_fields hm2' with ⟨bt2', rt2', hb2', hr2', hfb2', hfr2'⟩
      rw [hfb1, Option.getD_some] at hb2
      rw [hfr1, Option.getD_some] at hr2
      rw [hfb1', Option.getD_some] at hb2'
      rw [hfr1', Option.getD_some] at hr2'
      unfold nbAt bunAt at hbk hbts
      unfold nbAt relAt at hrts
      rw [hka, hkb, Option.getD_some, Option.getD_some] at hbk hbts hrts
      have hbun := two_step_bundle_comm hbk hbts hb1 hb2 hb1' hb2'
      have hrel := two_step_release_comm hrts hr1 hr2 hr1' hr2'
      have hbunAB : bunAt YAB k = bt2 := by
        unfold bunAt
        rw [hl2, Option.getD_some, hfb2, Option.getD_some]
      have hrelAB : relAt YAB k = rt2 := by
        unfold relAt
        rw [hl2, Option.getD_some, hfr2, Option.getD_some]
      have hbunBA : bunAt YBA k = bt2' := by
        unfold bunAt
        rw [hl2', Option.getD_some, hfb2', Option.getD_some]
      have hrelBA : relAt YBA k = rt2' := by
        unfold relAt
        rw [hl2', Option.getD_some, hfr2', Option.getD_some]
      constructor
      · intro x
        rw [hbunAB, hbunBA]
        exact hbun x
      · intro x
        rw [hrelAB, hrelBA]
        exact hrel x

set_option maxRecDepth 400000 in
/-- Witness for the amended C3 theorem at concrete batches with distinct
build keys and distinct timestamps per bucket. -/
theorem merge_order_independent_witness :
    (∀ x, x ∈ bunAt cYAB "4.14" ↔ x ∈ bunAt cYBA "4.14") ∧
    (∀ x, x ∈ relAt cYAB "4.14" ↔ x ∈ relAt cYBA "4.14") :=
  merge_order_independent cA cB cH cYA cYAB cYB cYBA (some 2) "4.14"
    (by decide) (by decide) (by rfl) (by rfl) (by rfl) (by rfl)
    (by decide) (by decide) (by decide)

end NvidiaCI
